import Mathlib

set_option maxHeartbeats 1000000

/-!
# A verification model of the mincePy Historian core

The Historian (save path / load path / migration chain / optimistic locking)
of the mincePy repository is specified in `spec.md`; the Python implementation
of that core is not among the provided source files (only documentation,
notebooks, packaging and CI files are), so the definitions below are modelled
from the specification text, as indicated by their doc comments.

Modelling conventions:
* object ids, live-instance addresses, type ids and versions are natural
  numbers (the source uses UUIDs / BSON ObjectIds; only freshness and
  equality of these identifiers matter);
* primitive state values are strings;
* the deterministic content hash of an encoded state is modelled as the
  pair (encoded state, type id) itself, which is the canonical deterministic
  and collision-free hash (the spec requires only determinism:
  same state and type imply the same hash);
* record timestamps are not tracked (set to 0); the free-form `extra`
  metadata field is omitted (no claim concerns it);
* a stored reference field holds the referent's object id and re-resolves
  to the latest version at load time, following the spec's floating
  "latest" references and the documented behaviour of the notebooks
  (a reloaded object sees the referenced object's newest state).
-/

abbrev ObjectId := Nat
abbrev Addr := Nat
abbrev TypeId := Nat
abbrev Version := Nat

/-- Modelled from the spec: `encoded_state` is "a tree of primitives, nested
encoded sub-states, and References".  A by-value embedded savable is a
`branch` carrying the nested object's type id and encoded fields; a
by-reference field is a `ref` holding the referent's object id. -/
inductive EncodedNode where
  | prim (v : String)
  | ref (oid : ObjectId)
  | branch (tid : TypeId) (fields : List (String × EncodedNode))

abbrev EncodedState := List (String × EncodedNode)

/-- Decidable equality of encoded nodes (written by hand because the
automatic deriving does not support nested inductives). -/
def nodeDecEq : (a b : EncodedNode) → Decidable (a = b)
  | .prim x, .prim y =>
    match decEq x y with
    | isTrue h => isTrue (by rw [h])
    | isFalse h => isFalse (fun hh => by cases hh; exact h rfl)
  | .prim _, .ref _ => isFalse (fun h => EncodedNode.noConfusion h)
  | .prim _, .branch _ _ => isFalse (fun h => EncodedNode.noConfusion h)
  | .ref _, .prim _ => isFalse (fun h => EncodedNode.noConfusion h)
  | .ref x, .ref y =>
    match decEq x y with
    | isTrue h => isTrue (by rw [h])
    | isFalse h => isFalse (fun hh => by cases hh; exact h rfl)
  | .ref _, .branch _ _ => isFalse (fun h => EncodedNode.noConfusion h)
  | .branch _ _, .prim _ => isFalse (fun h => EncodedNode.noConfusion h)
  | .branch _ _, .ref _ => isFalse (fun h => EncodedNode.noConfusion h)
  | .branch t1 f1, .branch t2 f2 =>
    match decEq t1 t2 with
    | isFalse h => isFalse (fun hh => by cases hh; exact h rfl)
    | isTrue h1 =>
      match goFields f1 f2 with
      | isTrue h2 => isTrue (by rw [h1, h2])
      | isFalse h2 => isFalse (fun hh => by cases hh; exact h2 rfl)
where
  /-- Decidable equality of encoded field lists. -/
  goFields : (a b : List (String × EncodedNode)) → Decidable (a = b)
    | [], [] => isTrue rfl
    | [], _ :: _ => isFalse (fun h => List.noConfusion h)
    | _ :: _, [] => isFalse (fun h => List.noConfusion h)
    | (k1, v1) :: r1, (k2, v2) :: r2 =>
      match decEq k1 k2 with
      | isFalse h => isFalse (fun hh => by cases hh; exact h rfl)
      | isTrue hk =>
        match nodeDecEq v1 v2 with
        | isFalse h => isFalse (fun hh => by cases hh; exact h rfl)
        | isTrue hv =>
          match goFields r1 r2 with
          | isTrue hr => isTrue (by rw [hk, hv, hr])
          | isFalse h => isFalse (fun hh => by cases hh; exact h rfl)

instance : DecidableEq EncodedNode := nodeDecEq

/-- Modelled from the spec: `content_hash` is a "deterministic hash of
`encoded_state` + `type_id`"; modelled as the pair itself. -/
abbrev ContentHash := EncodedState × TypeId

def contentHash (s : EncodedState) (tid : TypeId) : ContentHash := (s, tid)

/-- Modelled from the spec: a Reference is a stable (object-id, version)
pointer with structural equality. -/
structure Reference where
  oid : ObjectId
  version : Version
deriving DecidableEq

/-- Modelled from the spec: an immutable DataRecord describing one snapshot
(timestamps are kept as fields but not tracked; `extra` is omitted). -/
structure DataRecord where
  object_id : ObjectId
  type_id : TypeId
  created_time : Nat
  version : Version
  encoded_state : EncodedState
  state_schema_version : Nat
  content_hash : ContentHash
  snapshot_time : Nat
deriving DecidableEq

/-- A live in-memory field value: a primitive or a pointer to another live
object in the historian's heap. -/
inductive FieldVal where
  | prim (v : String)
  | obj (a : Addr)
deriving DecidableEq

/-- A live in-memory object: its runtime type (identified by type id) and
its named fields. -/
structure LiveObj where
  typeId : TypeId
  fields : List (String × FieldVal)
deriving DecidableEq

/-- Modelled from the spec: the TypeHelper contract binds one type id to a
current schema version, a per-field by-reference policy (field names listed
in `refFields` are stored by reference, all others by value) and an ordered
migration chain (the entry `(k, f)` upgrades a state from schema version
`k - 1` to `k`). -/
structure TypeHelper where
  type_id : TypeId
  schema_version : Nat
  refFields : List String
  migrations : List (Nat × (EncodedState → EncodedState))

/-- Per-live-instance tracking data held by the identity map: the object id
and the last-saved version and content hash. -/
structure TrackInfo where
  oid : ObjectId
  lastVersion : Version
  lastHash : ContentHash
deriving DecidableEq

/-- Modelled from the spec: one Historian session.  `tracked` maps a live
instance to its (object id, last-saved version, last-saved hash); `liveOf`
is the identity map from object id to the unique live instance of the
session; `registry` is the type registry. -/
structure Historian where
  registry : List TypeHelper
  heap : List (Addr × LiveObj)
  tracked : List (Addr × TrackInfo)
  liveOf : List (ObjectId × Addr)
  nextAddr : Addr

/-- Modelled from the spec's error taxonomy (7. ERROR HANDLING DESIGN).
`outOfFuel` is an artefact of the fuel-bounded recursion of the model and is
never returned when the walk is given sufficient fuel. -/
inductive MError where
  | unregisteredType (tid : TypeId)
  | recordNotFound
  | concurrentModificationError
  | cyclicValueEmbeddingError
  | brokenMigrationChainError
  | internalError
  | outOfFuel
deriving DecidableEq

/-- Association-list lookup (first match wins). -/
def assocFind {κ β : Type} [DecidableEq κ] : List (κ × β) → κ → Option β
  | [], _ => none
  | (k, v) :: r, k0 => if k0 = k then some v else assocFind r k0

/-- Pointwise in-place update of one field of an association list (no entry
is added when the key is absent). -/
def assocSet {κ β : Type} [DecidableEq κ] (l : List (κ × β)) (k : κ) (v : β) :
    List (κ × β) :=
  l.map (fun p => if p.1 = k then (p.1, v) else p)

/-- Modelled from the spec: the external archive is an append-only sequence
of immutable records. -/
abbrev Archive := List DataRecord

/-- Modelled from the spec: `get_history(object_id)` returns the ordered
sequence of records of one object id (archive order; the archive invariant
makes this ascending in version). -/
def history (ar : Archive) (oid : ObjectId) : List DataRecord :=
  ar.filter (fun r => r.object_id = oid)

/-- The newest record of an object id, if any. -/
def getLatest (ar : Archive) (oid : ObjectId) : Option DataRecord :=
  (history ar oid).getLast?

/-- The archive's current latest version for an object id. -/
def latestVersion (ar : Archive) (oid : ObjectId) : Option Version :=
  (getLatest ar oid).map (·.version)

/-- Modelled from the spec: `get_record(object_id, version)` fetches one
pinned snapshot record. -/
def getRecord (ar : Archive) (oid : ObjectId) (v : Version) : Option DataRecord :=
  (history ar oid).find? (fun r => r.version = v)

/-- Modelled from the spec: `resolve_by_id(type_id) -> TypeHelper | NotFound`
from the type registry.  A live object's runtime type is identified with its
type id, so `resolve(type)` and `resolve_by_id` coincide in the model. -/
def resolveType (reg : List TypeHelper) (tid : TypeId) : Option TypeHelper :=
  reg.find? (fun x => x.type_id = tid)

/-- An upper bound used to allocate fresh object ids: strictly greater than
every object id in the archive. -/
def maxOidArchive (ar : Archive) : Nat :=
  ar.foldr (fun r m => max r.object_id m) 0

/-- An upper bound over the object ids known to a session's identity map. -/
def maxOidTracked (tr : List (Addr × TrackInfo)) : Nat :=
  tr.foldr (fun x m => max x.2.oid m) 0

/-- Modelled from the spec: object ids are "opaque, globally unique, never
reused"; a fresh id is allocated beyond everything in the archive and in the
session. -/
def freshOid (ar : Archive) (h : Historian) : ObjectId :=
  max (maxOidArchive ar) (maxOidTracked h.tracked) + 1

/-- Modelled from the spec: the per-save transaction state.  `staged` holds
the records produced by the walk (committed atomically at the end or
discarded on error); `stagedTrack` the identity-map updates to apply on
commit; `prov` maps each object deposited (or being deposited) in this walk
to its (possibly provisional) object id, preventing duplicate saves and
resolving reference cycles; `nextOid` is the provisional id allocator. -/
structure WalkSt where
  staged : List DataRecord
  stagedTrack : List (Addr × TrackInfo)
  prov : List (Addr × ObjectId)
  nextOid : ObjectId

mutual

/-- Modelled from the spec (4.2 Depositor): deposit one live object.
Resolve its TypeHelper (`UnregisteredType` if none), obtain or allocate its
object id, mark it in progress, encode its fields, then: if the new content
hash equals the last-saved hash this is a no-op save returning the existing
reference; otherwise, if the archive's latest version has advanced past the
last known version, fail with `ConcurrentModificationError` before writing;
otherwise stage a record with the next version (0 for a first save).
`inprog` is the walk stack used for cycle detection; one unit of fuel is
consumed per level of the walk, never per sibling. -/
def depositOne (fuel : Nat) (ar : Archive) (reg : List TypeHelper)
    (heap : List (Addr × LiveObj)) (tr : List (Addr × TrackInfo))
    (inprog : List Addr) (st : WalkSt) (a : Addr) :
    Except MError (WalkSt × ObjectId × Version) :=
  match fuel with
  | 0 => .error .outOfFuel
  | fuel + 1 =>
    match assocFind heap a with
    | none => .error .internalError
    | some obj =>
      match resolveType reg obj.typeId with
      | none => .error (.unregisteredType obj.typeId)
      | some helper =>
        match assocFind tr a with
        | some i =>
          match encodeFields fuel ar reg heap tr (a :: inprog)
              { st with prov := (a, i.oid) :: st.prov } helper obj.fields with
          | .error e => .error e
          | .ok (st2, s) =>
            if contentHash s helper.type_id = i.lastHash then
              .ok (st2, i.oid, i.lastVersion)
            else if i.lastVersion < (latestVersion ar i.oid).getD i.lastVersion then
              .error .concurrentModificationError
            else
              .ok ({ st2 with
                       staged :=
                         ⟨i.oid, helper.type_id, 0, i.lastVersion + 1, s,
                          helper.schema_version, contentHash s helper.type_id, 0⟩ ::
                           st2.staged,
                       stagedTrack :=
                         (a, ⟨i.oid, i.lastVersion + 1,
                              contentHash s helper.type_id⟩) :: st2.stagedTrack },
                   i.oid, i.lastVersion + 1)
        | none =>
          match encodeFields fuel ar reg heap tr (a :: inprog)
              { st with prov := (a, st.nextOid) :: st.prov,
                        nextOid := st.nextOid + 1 } helper obj.fields with
          | .error e => .error e
          | .ok (st2, s) =>
            .ok ({ st2 with
                     staged :=
                       ⟨st.nextOid, helper.type_id, 0, 0, s,
                        helper.schema_version, contentHash s helper.type_id, 0⟩ ::
                         st2.staged,
                     stagedTrack :=
                       (a, ⟨st.nextOid, 0,
                            contentHash s helper.type_id⟩) :: st2.stagedTrack },
                 st.nextOid, 0)

/-- Modelled from the spec (4.2 Depositor): encode the fields of one object,
left to right, threading the transaction state.  A primitive encodes as
itself.  A nested object in a by-reference field is deposited first (or its
reference reused if it is already being processed in this walk) and replaced
by a Reference; a nested object in a by-value field is embedded inline, and
revisiting an in-progress object through a by-value field is a fatal
`CyclicValueEmbeddingError`.  (The field list is traversed by a fold so that
all siblings are encoded with the same fuel.) -/
def encodeFields (fuel : Nat) (ar : Archive) (reg : List TypeHelper)
    (heap : List (Addr × LiveObj)) (tr : List (Addr × TrackInfo))
    (inprog : List Addr) (st : WalkSt) (helper : TypeHelper)
    (fields : List (String × FieldVal)) :
    Except MError (WalkSt × EncodedState) :=
  match fuel with
  | 0 => .error .outOfFuel
  | fuel + 1 =>
    (fields.foldr
      (fun kv (cont : WalkSt → Except MError (WalkSt × EncodedState)) =>
        fun st1 =>
          match kv with
          | (k, .prim v) =>
            match cont st1 with
            | .error e => .error e
            | .ok (st3, s) => .ok (st3, (k, EncodedNode.prim v) :: s)
          | (k, .obj b) =>
            if k ∈ helper.refFields then
              match assocFind st1.prov b with
              | some oid =>
                match cont st1 with
                | .error e => .error e
                | .ok (st3, s) => .ok (st3, (k, EncodedNode.ref oid) :: s)
              | none =>
                match depositOne fuel ar reg heap tr inprog st1 b with
                | .error e => .error e
                | .ok (st2, oid, _) =>
                  match cont st2 with
                  | .error e => .error e
                  | .ok (st3, s) => .ok (st3, (k, EncodedNode.ref oid) :: s)
            else
              if b ∈ inprog then .error .cyclicValueEmbeddingError
              else
                match encodeValue fuel ar reg heap tr (b :: inprog) st1 b with
                | .error e => .error e
                | .ok (st2, node) =>
                  match cont st2 with
                  | .error e => .error e
                  | .ok (st3, s) => .ok (st3, (k, node) :: s))
      (fun st1 => .ok (st1, []))) st

/-- Modelled from the spec (4.2 Depositor): embed a nested savable object by
value — "recursively encode the nested object's full state inline (deep
embedding, no separate record)". -/
def encodeValue (fuel : Nat) (ar : Archive) (reg : List TypeHelper)
    (heap : List (Addr × LiveObj)) (tr : List (Addr × TrackInfo))
    (inprog : List Addr) (st : WalkSt) (b : Addr) :
    Except MError (WalkSt × EncodedNode) :=
  match fuel with
  | 0 => .error .outOfFuel
  | fuel + 1 =>
    match assocFind heap b with
    | none => .error .internalError
    | some obj =>
      match resolveType reg obj.typeId with
      | none => .error (.unregisteredType obj.typeId)
      | some helper2 =>
        match encodeFields fuel ar reg heap tr inprog st helper2 obj.fields with
        | .error e => .error e
        | .ok (st2, s) => .ok (st2, .branch helper2.type_id s)

end

/-- Fuel that dominates the depth of any save walk: fuel is consumed per
level of the walk (never per sibling), each deposit or by-value embedding
level costs two units, and the number of such levels is bounded by the heap
because every level marks a previously unmarked address. -/
def saveFuel (h : Historian) : Nat := 4 * h.heap.length + 4

/-- Modelled from the spec (4.5 Historian / 4.1 Transaction): `save` runs
the deposit walk in a transaction; on success all staged records are
appended to the archive atomically and the identity map is updated; on any
error nothing is written. -/
def save (ar : Archive) (h : Historian) (a : Addr) :
    Except MError (Archive × Historian × Reference) :=
  let st0 : WalkSt := ⟨[], [], [], freshOid ar h⟩
  match depositOne (saveFuel h) ar h.registry h.heap h.tracked [] st0 a with
  | .error e => .error e
  | .ok (st, oid, v) =>
    .ok (ar ++ st.staged.reverse,
         { h with tracked := st.stagedTrack ++ h.tracked,
                  liveOf := st.stagedTrack.map (fun x => (x.2.oid, x.1)) ++ h.liveOf },
         (⟨oid, v⟩ : Reference))

/-- The reference returned by a save (projection used in concrete stories). -/
def saveRef (ar : Archive) (h : Historian) (a : Addr) : Except MError Reference :=
  (save ar h a).map (fun x => x.2.2)

/-- The archive produced by a save (projection used in concrete stories). -/
def saveAr (ar : Archive) (h : Historian) (a : Addr) : Except MError Archive :=
  (save ar h a).map (fun x => x.1)

/-- Modelled from the spec (4.4 Migration chain resolver): compose the
migration steps of a helper from stored schema version `v0` up to version
`v1`, in ascending order; a missing step, or a stored version newer than the
current one, fails with `BrokenMigrationChainError`. -/
def migrateTo (ms : List (Nat × (EncodedState → EncodedState))) :
    Nat → Nat → EncodedState → Except MError EncodedState
  | v0, 0, s => if v0 = 0 then .ok s else .error .brokenMigrationChainError
  | v0, t + 1, s =>
    if v0 = t + 1 then .ok s
    else
      match migrateTo ms v0 t s with
      | .error e => .error e
      | .ok s2 =>
        match assocFind ms (t + 1) with
        | none => .error .brokenMigrationChainError
        | some f => .ok (f s2)

/-- Modelled from the spec (4.3 Loader): if the stored schema version is
behind the helper's current version, resolve and apply the migration chain
to the in-memory state; the stored record itself is never modified. -/
def migrateState (helper : TypeHelper) (r : DataRecord) :
    Except MError EncodedState :=
  if r.state_schema_version = helper.schema_version then .ok r.encoded_state
  else migrateTo helper.migrations r.state_schema_version helper.schema_version
         r.encoded_state

mutual

/-- Modelled from the spec (4.3 Loader): load the latest snapshot of an
object id.  An identity-map hit returns the existing live instance
unchanged; otherwise the latest record is fetched (`RecordNotFound` if
absent), its helper resolved (`UnregisteredType` if absent), the state
migrated if its stored schema version is behind, and the state decoded into
a new instance that is registered in the identity map before its fields are
decoded, so cyclic and diamond-shaped reference graphs share instances and
terminate. -/
def loadOne (fuel : Nat) (ar : Archive) (h : Historian) (oid : ObjectId) :
    Except MError (Archive × Historian × Addr) :=
  match fuel with
  | 0 => .error .outOfFuel
  | fuel + 1 =>
    match assocFind h.liveOf oid with
    | some a => .ok (ar, h, a)
    | none =>
      match getLatest ar oid with
      | none => .error .recordNotFound
      | some r =>
        match resolveType h.registry r.type_id with
        | none => .error (.unregisteredType r.type_id)
        | some helper =>
          match migrateState helper r with
          | .error e => .error e
          | .ok s =>
            match decodeFields fuel ar
                { h with nextAddr := h.nextAddr + 1,
                         liveOf := (oid, h.nextAddr) :: h.liveOf,
                         tracked := (h.nextAddr, ⟨oid, r.version, r.content_hash⟩) ::
                           h.tracked } s with
            | .error e => .error e
            | .ok (ar2, h2, fs) =>
              .ok (ar2, { h2 with heap := (h.nextAddr, ⟨r.type_id, fs⟩) :: h2.heap },
                   h.nextAddr)

/-- Modelled from the spec (4.3 Loader): decode an encoded state into live
field values, left to right, threading the archive and the session.  (The
list is traversed by a fold so that all siblings are decoded with the same
fuel.) -/
def decodeFields (fuel : Nat) (ar : Archive) (h : Historian)
    (s : EncodedState) :
    Except MError (Archive × Historian × List (String × FieldVal)) :=
  match fuel with
  | 0 => .error .outOfFuel
  | fuel + 1 =>
    (s.foldr
      (fun kv (cont : Archive → Historian →
          Except MError (Archive × Historian × List (String × FieldVal))) =>
        fun ar1 h1 =>
          match decodeNode fuel ar1 h1 kv.2 with
          | .error e => .error e
          | .ok (ar2, h2, v) =>
            match cont ar2 h2 with
            | .error e => .error e
            | .ok (ar3, h3, vs) => .ok (ar3, h3, (kv.1, v) :: vs))
      (fun ar1 h1 => .ok (ar1, h1, []))) ar h

/-- Modelled from the spec (4.3 Loader): decode one node — a primitive is
itself, a Reference is resolved by recursively loading the referent
(memoised through the identity map), a by-value branch is decoded into a
fresh untracked live object. -/
def decodeNode (fuel : Nat) (ar : Archive) (h : Historian)
    (node : EncodedNode) :
    Except MError (Archive × Historian × FieldVal) :=
  match fuel with
  | 0 => .error .outOfFuel
  | fuel + 1 =>
    match node with
    | .prim v => .ok (ar, h, .prim v)
    | .ref oid =>
      match loadOne fuel ar h oid with
      | .error e => .error e
      | .ok (ar1, h1, b) => .ok (ar1, h1, .obj b)
    | .branch tid fs =>
      match decodeFields fuel ar h fs with
      | .error e => .error e
      | .ok (ar1, h1, nf) =>
        .ok (ar1,
             { h1 with nextAddr := h1.nextAddr + 1,
                       heap := (h1.nextAddr, ⟨tid, nf⟩) :: h1.heap },
             .obj h1.nextAddr)

end

/-- The total size of an encoded state tree (used only to budget load
fuel). -/
def nodeSize : EncodedNode → Nat
  | .prim _ => 1
  | .ref _ => 1
  | .branch _ fs => 1 + goFields fs
where
  goFields : List (String × EncodedNode) → Nat
    | [] => 0
    | (_, v) :: r => nodeSize v + goFields r

/-- The total size of all encoded states stored in an archive. -/
def archiveStateSize (ar : Archive) : Nat :=
  ar.foldr (fun r acc => nodeSize.goFields r.encoded_state + acc) 0

/-- Fuel that dominates the depth of a load walk: fuel is consumed per
level (never per sibling); each reference resolution that is not an
identity-map hit registers a new object id (at most one per archive record)
and each by-value branch consumes nesting depth bounded by the stored state
sizes. -/
def loadFuel (ar : Archive) : Nat :=
  3 * ar.length + 3 * archiveStateSize ar + 3

/-- Modelled from the spec: `load(ObjectId)` — load the latest version. -/
def loadLatest (ar : Archive) (h : Historian) (oid : ObjectId) :
    Except MError (Archive × Historian × Addr) :=
  loadOne (loadFuel ar) ar h oid

/-- Modelled from the spec (4.3 Loader / 4.1): `load(Reference)` — load a
pinned historical snapshot.  The requested record is fetched and decoded
into a fresh, detached instance: it is registered neither in the identity
map nor as tracked, so it is a frozen historical copy. -/
def loadPinned (ar : Archive) (h : Historian) (oid : ObjectId) (v : Version) :
    Except MError (Archive × Historian × Addr) :=
  match getRecord ar oid v with
  | none => .error .recordNotFound
  | some r =>
    match resolveType h.registry r.type_id with
    | none => .error (.unregisteredType r.type_id)
    | some helper =>
      match migrateState helper r with
      | .error e => .error e
      | .ok s =>
        match decodeFields (loadFuel ar) ar h s with
        | .error e => .error e
        | .ok (ar2, h2, fs) =>
          .ok (ar2,
               { h2 with nextAddr := h2.nextAddr + 1,
                         heap := (h2.nextAddr, ⟨r.type_id, fs⟩) :: h2.heap },
               h2.nextAddr)

/-- A fresh Historian session over a registry (empty heap and identity map). -/
def emptyHistorian (reg : List TypeHelper) : Historian := ⟨reg, [], [], [], 0⟩

/-- Create a new live object in a session (application code constructing an
object). -/
def addObj (h : Historian) (o : LiveObj) : Historian :=
  { h with heap := (h.nextAddr, o) :: h.heap, nextAddr := h.nextAddr + 1 }

/-- Mutate one field of a live object (application code editing an object
in memory). -/
def mutateObj (h : Historian) (a : Addr) (k : String) (v : FieldVal) : Historian :=
  { h with heap :=
      match assocFind h.heap a with
      | some o => (a, ⟨o.typeId, assocSet o.fields k v⟩) :: h.heap
      | none => h.heap }

/-- Register a TypeHelper in a session's registry. -/
def regHelper (h : Historian) (helper : TypeHelper) : Historian :=
  { h with registry := helper :: h.registry }

/-- Decidable equality for `Except` results (used by concrete stories). -/
instance {ε α : Type} [DecidableEq ε] [DecidableEq α] : DecidableEq (Except ε α)
  | .ok a, .ok b =>
    match decEq a b with
    | isTrue h => isTrue (by rw [h])
    | isFalse h => isFalse (fun hh => by cases hh; exact h rfl)
  | .ok _, .error _ => isFalse (fun h => Except.noConfusion h)
  | .error _, .ok _ => isFalse (fun h => Except.noConfusion h)
  | .error a, .error b =>
    match decEq a b with
    | isTrue h => isTrue (by rw [h])
    | isFalse h => isFalse (fun hh => by cases hh; exact h rfl)

/-- Does an `Except` computation succeed? -/
def exOk {ε α : Type} : Except ε α → Bool
  | .ok _ => true
  | .error _ => false

/-- The object id a session's identity map associates with a live instance. -/
def trOid (tr : List (Addr × TrackInfo)) (b : Addr) : Option ObjectId :=
  (assocFind tr b).map (fun i => i.oid)

/-- `stateMatch refOk heap fields s` holds when the live field values
`fields` have exactly the state described by the encoded state `s`:
primitives agree, a by-reference node satisfies the reference contract
`refOk` against the live pointer target, and a by-value branch embeds a
live object of the branch's type whose fields recursively match. -/
def stateMatch (refOk : Addr → ObjectId → Bool) (heap : List (Addr × LiveObj)) :
    List (String × FieldVal) → EncodedState → Bool
  | [], [] => true
  | (k1, v1) :: fr, (k2, n2) :: sr =>
    k1 == k2 && goNode v1 n2 && stateMatch refOk heap fr sr
  | _, _ => false
where
  /-- One live field value against one encoded node. -/
  goNode : FieldVal → EncodedNode → Bool
    | .prim v1, .prim v2 => v1 == v2
    | .obj b, .ref oid => refOk b oid
    | .obj b, .branch tid fs =>
      (match assocFind heap b with
       | some o => o.typeId == tid && stateMatch refOk heap o.fields fs
       | none => false)
    | _, _ => false

/-- State equality per the type's field contract, as observed through a
session: a by-reference node must point (through the identity map `tr`) at
a live instance registered under the referenced object id.  This is the
notion of "state equal per the type's equality/field contract" used by the
round-trip claims. -/
def fieldsMatch (heap : List (Addr × LiveObj)) (tr : List (Addr × TrackInfo))
    (fields : List (String × FieldVal)) (s : EncodedState) : Bool :=
  stateMatch (fun b oid => trOid tr b == some oid) heap fields s

/-- State equality as observed mid-save through the provisional id map of
the walk: a by-reference node must name the provisional id of the live
pointer target. -/
def provMatch (heap : List (Addr × LiveObj)) (prov : List (Addr × ObjectId))
    (fields : List (String × FieldVal)) (s : EncodedState) : Bool :=
  stateMatch (fun b oid => assocFind prov b == some oid) heap fields s

/-- A live-object graph edge: object at `x` has a field holding the object
at `b` (any field policy). -/
def objEdge (heap : List (Addr × LiveObj)) (x b : Addr) : Prop :=
  ∃ o k, assocFind heap x = some o ∧ (k, FieldVal.obj b) ∈ o.fields

/-- Reachability along live-object fields. -/
def HPath (heap : List (Addr × LiveObj)) : Addr → Addr → Prop :=
  Relation.ReflTransGen (objEdge heap)

/-- A by-value edge: object at `x` holds the object at `b` in a field its
helper does not declare by reference. -/
def valEdge (reg : List TypeHelper) (heap : List (Addr × LiveObj)) (x b : Addr) : Prop :=
  ∃ o hl k, assocFind heap x = some o ∧ resolveType reg o.typeId = some hl ∧
    (k, FieldVal.obj b) ∈ o.fields ∧ k ∉ hl.refFields

/-- Every reference cycle of the heap passes only through by-reference
fields: no cycle contains a by-value edge. -/
def NoValCycle (reg : List TypeHelper) (heap : List (Addr × LiveObj)) : Prop :=
  ∀ x b, valEdge reg heap x b → ¬ HPath heap b x

/-- Every object in the heap has a registered TypeHelper. -/
def regAllB (reg : List TypeHelper) (heap : List (Addr × LiveObj)) : Bool :=
  heap.all (fun p => (resolveType reg p.2.typeId).isSome)

/-- Every object field of every heap object points into the heap. -/
def heapClosedB (heap : List (Addr × LiveObj)) : Bool :=
  heap.all (fun p => p.2.fields.all (fun f =>
    match f.2 with
    | .obj b => (assocFind heap b).isSome
    | .prim _ => true))

/-- No tracked instance is stale: the archive's latest version has not
advanced past any instance's last known version. -/
def lockFreeB (ar : Archive) (tr : List (Addr × TrackInfo)) : Bool :=
  tr.all (fun p =>
    !(decide (p.2.lastVersion < (latestVersion ar p.2.oid).getD p.2.lastVersion)))

/-- Archive well-formedness: for every object id, the versions in its
history are exactly `0, 1, …, n-1` in order — strictly increasing from 0
with no gaps. -/
def AWF (ar : Archive) : Prop :=
  ∀ oid, (history ar oid).map (fun r => r.version) =
    List.range (history ar oid).length

/-- Record-hash integrity: every stored record carries the content hash of
its own encoded state and type id. -/
def RHI (ar : Archive) : Prop :=
  ∀ r ∈ ar, r.content_hash = contentHash r.encoded_state r.type_id

/-- Soundness of a tracking map against the archive: every tracked
instance's last known version exists in the archive. -/
def TRSound (ar : Archive) (tr : List (Addr × TrackInfo)) : Prop :=
  ∀ a i, assocFind tr a = some i →
    ∃ r ∈ ar, r.object_id = i.oid ∧ r.version = i.lastVersion

/-- Injectivity of a tracking map: two live instances never track the same
object id. -/
def TRInj (tr : List (Addr × TrackInfo)) : Prop :=
  ∀ a1 a2 i1 i2, assocFind tr a1 = some i1 → assocFind tr a2 = some i2 →
    i1.oid = i2.oid → a1 = a2

/-- Identity-map soundness of a session against the archive. -/
def HWF (ar : Archive) (h : Historian) : Prop := TRSound ar h.tracked

/-- Tracked-instance injectivity of a session. -/
def TINJ (h : Historian) : Prop := TRInj h.tracked

/-- The identity map (`liveOf`) and the per-instance tracking agree: a
tracked instance is the one the identity map returns for its object id. -/
def LIVETR (h : Historian) : Prop :=
  ∀ a i, assocFind h.tracked a = some i → assocFind h.liveOf i.oid = some a

/-- Address discipline: every heap, tracked and identity-map address is
below the session's allocator. -/
def ADDROK (h : Historian) : Prop :=
  (∀ p ∈ h.heap, p.1 < h.nextAddr) ∧
  (∀ p ∈ h.tracked, p.1 < h.nextAddr) ∧
  (∀ p ∈ h.liveOf, p.2 < h.nextAddr)

/-- The identity map only names tracked instances: every identity-map entry
has a matching tracked instance for the same object id. -/
def LIVERT (h : Historian) : Prop :=
  ∀ oid a, assocFind h.liveOf oid = some a →
    ∃ i, assocFind h.tracked a = some i ∧ i.oid = oid

/-- All session invariants together. -/
def HINV (ar : Archive) (h : Historian) : Prop :=
  HWF ar h ∧ TINJ h ∧ LIVETR h ∧ LIVERT h ∧ ADDROK h

/-- A world: the shared archive and the open sessions. -/
structure World where
  ar : Archive
  hs : List Historian

/-- The world invariant: the archive is well formed with sound hashes and
every open session satisfies the session invariants against it. -/
def WINV (w : World) : Prop :=
  AWF w.ar ∧ RHI w.ar ∧ ∀ h ∈ w.hs, HINV w.ar h

/-- Replace the `i`-th session of a world. -/
def setHist (w : World) (i : Nat) (h : Historian) : World :=
  ⟨w.ar, w.hs.set i h⟩

/-- Modelled from the spec: one step of the system — opening a session,
constructing or editing live objects, registering a type, or a save or load
call of one session against the shared archive. -/
inductive WStep : World → World → Prop where
  | newSession (w : World) (reg : List TypeHelper) :
      WStep w ⟨w.ar, emptyHistorian reg :: w.hs⟩
  | newObj (w : World) (i : Nat) (o : LiveObj) (h : Historian) :
      w.hs.get? i = some h → WStep w (setHist w i (addObj h o))
  | mutate (w : World) (i : Nat) (a : Addr) (k : String) (v : FieldVal)
      (h : Historian) :
      w.hs.get? i = some h → WStep w (setHist w i (mutateObj h a k v))
  | register (w : World) (i : Nat) (helper : TypeHelper) (h : Historian) :
      w.hs.get? i = some h → WStep w (setHist w i (regHelper h helper))
  | saveStep (w : World) (i : Nat) (a : Addr) (h : Historian) (ar2 : Archive)
      (h2 : Historian) (r : Reference) :
      w.hs.get? i = some h → save w.ar h a = .ok (ar2, h2, r) →
      WStep w ⟨ar2, w.hs.set i h2⟩
  | loadStep (w : World) (i : Nat) (oid : ObjectId) (h : Historian)
      (ar2 : Archive) (h2 : Historian) (b : Addr) :
      w.hs.get? i = some h → loadLatest w.ar h oid = .ok (ar2, h2, b) →
      WStep w ⟨ar2, w.hs.set i h2⟩
  | loadPinnedStep (w : World) (i : Nat) (oid : ObjectId) (v : Version)
      (h : Historian) (ar2 : Archive) (h2 : Historian) (b : Addr) :
      w.hs.get? i = some h → loadPinned w.ar h oid v = .ok (ar2, h2, b) →
      WStep w ⟨ar2, w.hs.set i h2⟩

/-- The worlds reachable from the initial empty system. -/
def ReachableW (w : World) : Prop :=
  Relation.ReflTransGen WStep ⟨[], []⟩ w

/-- Total projection of a save call used to build concrete stories (the
fallback values are never used on the success path). -/
def saveD (ar : Archive) (h : Historian) (a : Addr) :
    Archive × Historian × Reference :=
  match save ar h a with
  | .ok w => w
  | .error _ => (ar, h, ⟨0, 0⟩)

/-- Total projection of a latest-version load call. -/
def loadD (ar : Archive) (h : Historian) (oid : ObjectId) :
    Archive × Historian × Addr :=
  match loadLatest ar h oid with
  | .ok w => w
  | .error _ => (ar, h, 0)

/-- Modelled from the spec: `save_many(objects) -> sequence of Reference`,
saving the arguments in argument order within one session. -/
def saveMany (ar : Archive) (h : Historian) :
    List Addr → Except MError (Archive × Historian × List Reference)
  | [] => .ok (ar, h, [])
  | a :: rest =>
    match save ar h a with
    | .error e => .error e
    | .ok (ar1, h1, r) =>
      match saveMany ar1 h1 rest with
      | .error e => .error e
      | .ok (ar2, h2, rs) => .ok (ar2, h2, r :: rs)

/-- Modelled from the spec: `load_many`, loading the requested ids in
argument order within one session. -/
def loadMany (ar : Archive) (h : Historian) :
    List ObjectId → Except MError (Archive × Historian × List Addr)
  | [] => .ok (ar, h, [])
  | oid :: rest =>
    match loadLatest ar h oid with
    | .error e => .error e
    | .ok (ar1, h1, b) =>
      match loadMany ar1 h1 rest with
      | .error e => .error e
      | .ok (ar2, h2, bs) => .ok (ar2, h2, b :: bs)

/-! Concrete types, objects and stories used by witnesses and
counterexamples.  Type 1 is a car-like type with primitive fields; type 2 a
person-like type whose field "car" is by reference; type 3 a type with a
by-reference field "p"; type 4 a type whose field "p" is by value; types 5,
6 and 8 are used for the registration and mixed-cycle stories; type 7 has
schema version 1 with one migration. -/

def carH : TypeHelper := ⟨1, 0, [], []⟩
def perH : TypeHelper := ⟨2, 0, ["car"], []⟩
def cycH : TypeHelper := ⟨3, 0, ["p"], []⟩
def valH : TypeHelper := ⟨4, 0, [], []⟩
def c9AH : TypeHelper := ⟨5, 0, ["p"], []⟩
def mixBH : TypeHelper := ⟨6, 0, ["q"], []⟩
def migH : TypeHelper :=
  ⟨7, 1, [],
   [(1, fun s => [("colour", (assocFind s "0").getD (.prim "")),
                  ("make", (assocFind s "1").getD (.prim ""))])]⟩
def mixAH : TypeHelper := ⟨8, 0, [], []⟩

/-- One car with a single primitive field, in a session knowing only cars. -/
def hCar : Historian := addObj (emptyHistorian [carH]) ⟨1, [("colour", .prim "red")]⟩

/-- The optimistic-locking story: the archive after the first save of the
car (version 0, object id 1). -/
def c1ar0 : Archive := (saveD [] hCar 0).1

/-- The first writer's session after its first save. -/
def c1hw1 : Historian := (saveD [] hCar 0).2.1

/-- A second, independent session that loads the car. -/
def c1hw2 : Historian := (loadD c1ar0 (emptyHistorian [carH]) 1).2.1

/-- The second session's live copy of the car. -/
def c1b : Addr := (loadD c1ar0 (emptyHistorian [carH]) 1).2.2

/-- The archive after the first writer mutates its copy and saves again
(version 1), leaving the second session's copy stale at version 0. -/
def c1ar1 : Archive :=
  (saveD c1ar0 (mutateObj c1hw1 0 "colour" (.prim "blue")) 0).1

/-- The second session's copy, mutated, still believing version 0. -/
def c1hw2m : Historian := mutateObj c1hw2 c1b "colour" (.prim "green")

/-- A person (address 1) holding the car (address 0) by reference. -/
def hPer : Historian :=
  addObj (addObj (emptyHistorian [carH, perH]) ⟨1, [("colour", .prim "red")]⟩)
    ⟨2, [("car", .obj 0)]⟩

/-- The archive after saving the person (person id 1 version 0, car id 2
version 0). -/
def c2ar0 : Archive := (saveD [] hPer 1).1

/-- The session after saving the person. -/
def c2h1 : Historian := (saveD [] hPer 1).2.1

/-- The same session after the referenced car is mutated (the person's own
state, which stores only the car's id, is unchanged). -/
def c2h1m : Historian := mutateObj c2h1 0 "colour" (.prim "green")

/-- Two persons (addresses 1 and 2) sharing one car (address 0) by
reference. -/
def c5h : Historian :=
  addObj (addObj (addObj (emptyHistorian [carH, perH])
    ⟨1, [("colour", .prim "red")]⟩) ⟨2, [("car", .obj 0)]⟩)
    ⟨2, [("car", .obj 0)]⟩

/-- Archive after saving person A (A id 1, car id 2). -/
def c5ar1 : Archive := (saveD [] c5h 1).1

def c5h1 : Historian := (saveD [] c5h 1).2.1

/-- Archive after also saving person B (B id 3). -/
def c5ar2 : Archive := (saveD c5ar1 c5h1 2).1

def c5h2 : Historian := (saveD c5ar1 c5h1 2).2.1

/-- The saver's session after mutating the shared car. -/
def c5h3 : Historian := mutateObj c5h2 0 "colour" (.prim "yellow")

/-- Archive after saving the mutated shared car (car version 1). -/
def c5ar3 : Archive := (saveD c5ar2 c5h3 0).1

/-- A fresh reader session that loads person A and then person B. -/
def c5l1 : Historian := (loadD c5ar3 (emptyHistorian [carH, perH]) 1).2.1

def c5a : Addr := (loadD c5ar3 (emptyHistorian [carH, perH]) 1).2.2

def c5l2 : Historian := (loadD c5ar3 c5l1 3).2.1

def c5b : Addr := (loadD c5ar3 c5l1 3).2.2

/-- A two-object reference cycle: addresses 0 and 1 of type 3 point at each
other through the by-reference field "p". -/
def c7h : Historian :=
  addObj (addObj (emptyHistorian [cycH]) ⟨3, [("p", .obj 1)]⟩)
    ⟨3, [("p", .obj 0)]⟩

/-- Archive after saving the reference cycle (ids 1 and 2). -/
def c7ar : Archive := (saveD [] c7h 0).1

/-- A fresh session after loading both members of the saved cycle. -/
def c7l : Historian := (loadD c7ar (emptyHistorian [cycH]) 1).2.1

/-- The same two-object cycle through by-value fields (type 4). -/
def c7vh : Historian :=
  addObj (addObj (emptyHistorian [valH]) ⟨4, [("p", .obj 1)]⟩)
    ⟨4, [("p", .obj 0)]⟩

/-- A mixed cycle: address 0 (type 8) embeds address 1 by value, and
address 1 (type 6) points back at address 0 by reference. -/
def c7mh : Historian :=
  addObj (addObj (emptyHistorian [mixAH, mixBH]) ⟨8, [("p", .obj 1)]⟩)
    ⟨6, [("q", .obj 0)]⟩

/-- A record written under schema version 0 of type 7, holding the
array-like state `[red, zonda]`. -/
def oldRec : DataRecord :=
  ⟨5, 7, 0, 0, [("0", .prim "red"), ("1", .prim "zonda")], 0,
   contentHash [("0", .prim "red"), ("1", .prim "zonda")] 7, 0⟩

/-- Two objects: address 0 of type 4 (primitive field only) and address 1
of type 5 whose by-reference field "p" holds address 0; no helper is
registered yet. -/
def c9h0 : Historian :=
  addObj (addObj (emptyHistorian []) ⟨4, [("z", .prim "y")]⟩)
    ⟨5, [("p", .obj 0)]⟩

/-- The same session after registering a helper for type 5 only. -/
def c9h1 : Historian := regHelper c9h0 c9AH

/-- The same session after registering helpers for both types 5 and 4. -/
def c9h2 : Historian := regHelper c9h1 valH

/-- Two independent cars (addresses 0 and 1) for the many-argument story. -/
def c10h : Historian :=
  addObj (addObj (emptyHistorian [carH]) ⟨1, [("colour", .prim "red")]⟩)
    ⟨1, [("colour", .prim "blue")]⟩

/-- A later version-1 record of the car, appended after the pinned story's
version-0 record. -/
def c6Δ : Archive :=
  [⟨1, 1, 0, 1, [("colour", .prim "blue")],
    0, contentHash [("colour", .prim "blue")] 1, 0⟩]

/-- The result of loading the pinned version-0 reference from the extended
archive. -/
def c6res : Archive × Historian × Addr :=
  match loadPinned (c1ar0 ++ c6Δ) (emptyHistorian [carH]) 1 0 with
  | .ok w => w
  | .error _ => ([], emptyHistorian [], 0)

/-- The result of saving the two independent cars in argument order. -/
def c10saved : Archive × Historian × List Reference :=
  match saveMany [] c10h [0, 1] with
  | .ok w => w
  | .error _ => ([], emptyHistorian [], [])

/-- The result of loading the two saved ids, in argument order, in a fresh
session. -/
def c10loaded : Archive × Historian × List Addr :=
  match loadMany c10saved.1 (emptyHistorian [carH]) [1, 2] with
  | .ok w => w
  | .error _ => ([], emptyHistorian [], [])

/-- Modelled from the spec: the version the archive's append-only sequence
will assign to the next record of an object id. -/
def nextVersion (ar : Archive) (oid : ObjectId) : Version :=
  match latestVersion ar oid with
  | none => 0
  | some v => v + 1

/-- Invariant of the transaction state during a save walk: the provisional
id allocator dominates every id in sight, and the provisional map is
injective in both components with every provisional id either taken from
the session's tracking or fresh. -/
def WalkInv (ar : Archive) (tr : List (Addr × TrackInfo)) (st : WalkSt) : Prop :=
  maxOidArchive ar < st.nextOid ∧
  maxOidTracked tr < st.nextOid ∧
  (∀ p ∈ st.prov, p.2 < st.nextOid) ∧
  (st.prov.map Prod.fst).Nodup ∧
  (st.prov.map Prod.snd).Nodup ∧
  (∀ p ∈ st.prov,
     match assocFind tr p.1 with
     | some i => p.2 = i.oid
     | none => maxOidTracked tr < p.2 ∧ maxOidArchive ar < p.2)

/-- One staged record aligned with its staged identity-map update. -/
def StagedAligned (rec : DataRecord) (xt : Addr × TrackInfo) : Prop :=
  rec.object_id = xt.2.oid ∧ rec.version = xt.2.lastVersion ∧
  rec.content_hash = xt.2.lastHash

/-- One staged record encodes the live object deposited at its staged
address: the record carries the helper's type id and current schema
version, and its encoded state matches the live object's fields through the
walk's provisional id map. -/
def StagedEncodes (reg : List TypeHelper) (heap : List (Addr × LiveObj))
    (prov : List (Addr × ObjectId)) (rec : DataRecord)
    (xt : Addr × TrackInfo) : Prop :=
  ∃ o helper, assocFind heap xt.1 = some o ∧
    resolveType reg o.typeId = some helper ∧
    rec.type_id = helper.type_id ∧
    rec.state_schema_version = helper.schema_version ∧
    provMatch heap prov o.fields rec.encoded_state = true

/-- How one save-walk step grows the transaction: the provisional map grows
monotonically and every provisional id is tied either to the session's
tracking or to a record staged in this step; the staged records and staged
identity-map updates grow in aligned pairs whose addresses are heap
addresses, freshly deposited in this step, pairwise distinct, and
registered in the provisional map; every staged record carries the next
version for its object id, the content hash of its own state, and an
encoding of the live object at its staged address. -/
def WalkGrows (ar : Archive) (reg : List TypeHelper)
    (heap : List (Addr × LiveObj)) (tr : List (Addr × TrackInfo))
    (st st2 : WalkSt) : Prop :=
  st.nextOid ≤ st2.nextOid ∧
  (∀ x p, assocFind st.prov x = some p → assocFind st2.prov x = some p) ∧
  ∃ newT newR, st2.stagedTrack = newT ++ st.stagedTrack ∧
    st2.staged = newR ++ st.staged ∧
    List.Forall₂ StagedAligned newR newT ∧
    List.Forall₂ (StagedEncodes reg heap st2.prov) newR newT ∧
    (∀ xt ∈ newT, assocFind st.prov xt.1 = none ∧
       assocFind st2.prov xt.1 = some xt.2.oid ∧ (assocFind heap xt.1).isSome) ∧
    (newT.map Prod.fst).Nodup ∧
    (∀ rec ∈ newR, rec.version = nextVersion ar rec.object_id ∧
       rec.content_hash = contentHash rec.encoded_state rec.type_id) ∧
    (∀ x o, assocFind st2.prov x = some o →
       assocFind st.prov x = some o ∨
       (∃ i, assocFind tr x = some i ∧ i.oid = o) ∨
       (∃ xt ∈ newT, xt.1 = x ∧ xt.2.oid = o))

/-- How a load call extends a session: the registry is unchanged, existing
heap, tracking and identity-map entries keep their bindings, and every new
entry lives at (or points at) an address at or beyond the session's old
allocator mark. -/
def SessExt (h1 h2 : Historian) : Prop :=
  h2.registry = h1.registry ∧ h1.nextAddr ≤ h2.nextAddr ∧
  (∀ a o, assocFind h1.heap a = some o → assocFind h2.heap a = some o) ∧
  (∀ a i, assocFind h1.tracked a = some i → assocFind h2.tracked a = some i) ∧
  (∀ oid a, assocFind h1.liveOf oid = some a → assocFind h2.liveOf oid = some a) ∧
  (∀ p ∈ h2.heap, p ∈ h1.heap ∨ h1.nextAddr ≤ p.1) ∧
  (∀ p ∈ h2.tracked, p ∈ h1.tracked ∨ h1.nextAddr ≤ p.1) ∧
  (∀ p ∈ h2.liveOf, p ∈ h1.liveOf ∨ h1.nextAddr ≤ p.2)

/-! ## Basic lemmas -/

theorem assocFind_mem {κ β : Type} [DecidableEq κ] {l : List (κ × β)} {k : κ}
    {v : β} (h : assocFind l k = some v) : (k, v) ∈ l := by
  induction l with
  | nil => simp [assocFind] at h
  | cons p r ih =>
    obtain ⟨k1, v1⟩ := p
    by_cases hk : k = k1
    · subst hk
      simp [assocFind] at h
      simp [h]
    · simp [assocFind, hk] at h
      exact List.mem_cons_of_mem _ (ih h)

/-! ## Step equations of the load walk -/

theorem decodeFields_nil (fuel : Nat) (ar : Archive) (h : Historian) :
    decodeFields (fuel + 1) ar h [] = .ok (ar, h, []) := rfl

theorem decodeFields_cons (fuel : Nat) (ar : Archive) (h : Historian)
    (kv : String × EncodedNode) (rest : EncodedState) :
    decodeFields (fuel + 1) ar h (kv :: rest) =
      match decodeNode fuel ar h kv.2 with
      | .error e => .error e
      | .ok (ar2, h2, v) =>
        match decodeFields (fuel + 1) ar2 h2 rest with
        | .error e => .error e
        | .ok (ar3, h3, vs) => .ok (ar3, h3, (kv.1, v) :: vs) := rfl

/-! ## Loads never write to the archive -/

theorem loadWalk_ar_eq_all (fuel : Nat) :
    (∀ ar h oid ar2 h2 b,
      loadOne fuel ar h oid = .ok (ar2, h2, b) → ar2 = ar) ∧
    (∀ ar h s ar2 h2 fs,
      decodeFields fuel ar h s = .ok (ar2, h2, fs) → ar2 = ar) ∧
    (∀ ar h nd ar2 h2 v,
      decodeNode fuel ar h nd = .ok (ar2, h2, v) → ar2 = ar) := by
  induction fuel with
  | zero =>
    refine ⟨?_, ?_, ?_⟩ <;> intro ar h x ar2 h2 y heq <;>
      simp [loadOne, decodeFields, decodeNode] at heq
  | succ n ih =>
    obtain ⟨ihL, ihF, ihN⟩ := ih
    refine ⟨?_, ?_, ?_⟩
    · intro ar h oid ar2 h2 b heq
      cases hm : assocFind h.liveOf oid with
      | some a =>
        simp only [loadOne, hm, Except.ok.injEq, Prod.mk.injEq] at heq
        exact heq.1.symm
      | none =>
        cases hl : getLatest ar oid with
        | none => simp only [loadOne, hm, hl] at heq; exact Except.noConfusion heq
        | some r =>
          cases hres : resolveType h.registry r.type_id with
          | none => simp only [loadOne, hm, hl, hres] at heq; exact Except.noConfusion heq
          | some helper =>
            cases hmig : migrateState helper r with
            | error e => simp only [loadOne, hm, hl, hres, hmig] at heq; exact Except.noConfusion heq
            | ok s =>
              simp only [loadOne, hm, hl, hres, hmig] at heq
              cases hdec : decodeFields n ar
                  { h with nextAddr := h.nextAddr + 1,
                           liveOf := (oid, h.nextAddr) :: h.liveOf,
                           tracked := (h.nextAddr, ⟨oid, r.version, r.content_hash⟩) ::
                             h.tracked } s with
              | error e => simp only [hdec] at heq; exact Except.noConfusion heq
              | ok w =>
                obtain ⟨ar3, h3, fs⟩ := w
                simp only [hdec, Except.ok.injEq, Prod.mk.injEq] at heq
                exact heq.1 ▸ ihF _ _ _ _ _ _ hdec
    · intro ar h s
      induction s generalizing ar h with
      | nil =>
        intro ar2 h2 fs heq
        simp only [decodeFields_nil, Except.ok.injEq, Prod.mk.injEq] at heq
        exact heq.1.symm
      | cons kv rest ihrest =>
        intro ar2 h2 fs heq
        rw [decodeFields_cons] at heq
        cases hn : decodeNode n ar h kv.2 with
        | error e => simp only [hn] at heq; exact Except.noConfusion heq
        | ok w =>
          obtain ⟨ar3, h3, v⟩ := w
          simp only [hn] at heq
          cases hrest : decodeFields (n + 1) ar3 h3 rest with
          | error e => simp only [hrest] at heq; exact Except.noConfusion heq
          | ok w2 =>
            obtain ⟨ar4, h4, vs⟩ := w2
            simp only [hrest, Except.ok.injEq, Prod.mk.injEq] at heq
            exact heq.1 ▸ ((ihrest _ _ _ _ _ hrest).trans (ihN _ _ _ _ _ _ hn))
    · intro ar h nd ar2 h2 v heq
      cases nd with
      | prim s =>
        simp only [decodeNode, Except.ok.injEq, Prod.mk.injEq] at heq
        exact heq.1.symm
      | ref oid =>
        cases hl : loadOne n ar h oid with
        | error e => simp only [decodeNode, hl] at heq; exact Except.noConfusion heq
        | ok w =>
          obtain ⟨ar3, h3, b⟩ := w
          simp only [decodeNode, hl, Except.ok.injEq, Prod.mk.injEq] at heq
          exact heq.1 ▸ ihL _ _ _ _ _ _ hl
      | branch tid fs =>
        cases hdec : decodeFields n ar h fs with
        | error e => simp only [decodeNode, hdec] at heq; exact Except.noConfusion heq
        | ok w =>
          obtain ⟨ar3, h3, nf⟩ := w
          simp only [decodeNode, hdec, Except.ok.injEq, Prod.mk.injEq] at heq
          exact heq.1 ▸ ihF _ _ _ _ _ _ hdec

/-! ## C8 — migration acts on the in-memory state only -/

/-- C8: loading a record whose `state_schema_version` is behind the helper's
current version applies the migration chain to the in-memory state only: the
load leaves the archive unchanged, a subsequent `get_record` still returns
the original record with its un-migrated encoded state, the decoded state is
the one produced by the migration chain, and the loaded live object carries
exactly the decoding of that migrated state. -/
theorem C8_migration_frame (ar : Archive) (h : Historian) (oid : ObjectId)
    (v : Version) (r : DataRecord) (helper : TypeHelper) (s : EncodedState)
    (ar2 : Archive) (h2 : Historian) (b : Addr)
    (hrec : getRecord ar oid v = some r)
    (hres : resolveType h.registry r.type_id = some helper)
    (hbehind : r.state_schema_version < helper.schema_version)
    (hmig : migrateState helper r = .ok s)
    (hload : loadPinned ar h oid v = .ok (ar2, h2, b)) :
    ar2 = ar ∧ getRecord ar2 oid v = some r ∧
    migrateTo helper.migrations r.state_schema_version helper.schema_version
      r.encoded_state = .ok s ∧
    ∃ h3 fs, decodeFields (loadFuel ar) ar h s = .ok (ar, h3, fs) ∧
      assocFind h2.heap b = some ⟨r.type_id, fs⟩ := by
  have hchain : migrateTo helper.migrations r.state_schema_version
      helper.schema_version r.encoded_state = .ok s := by
    have hne : r.state_schema_version ≠ helper.schema_version :=
      Nat.ne_of_lt hbehind
    simpa [migrateState, hne] using hmig
  unfold loadPinned at hload
  simp only [hrec, hres, hmig] at hload
  cases hdec : decodeFields (loadFuel ar) ar h s with
  | error e =>
    simp only [hdec] at hload
    exact Except.noConfusion hload
  | ok w =>
    obtain ⟨ar3, h3, fs⟩ := w
    have har3 : ar3 = ar := (loadWalk_ar_eq_all _).2.1 _ _ _ _ _ _ hdec
    simp only [hdec, Except.ok.injEq, Prod.mk.injEq] at hload
    obtain ⟨h1, h2eq, h3eq⟩ := hload
    subst har3 h1 h2eq h3eq
    refine ⟨rfl, hrec, hchain, h3, fs, rfl, ?_⟩
    simp [assocFind]

/-- C8 witness: the concrete story of the spec — a version-0 record holding
`[red, zonda]` under schema version 0 of type 7 loads through the
registered migration while the stored record stays untouched. -/
theorem C8_migration_frame_witness :
    ∃ ar2 h2 b, loadPinned [oldRec] (emptyHistorian [migH]) 5 0 = .ok (ar2, h2, b) ∧
      ar2 = [oldRec] ∧ getRecord ar2 5 0 = some oldRec := by
  obtain ⟨ar2, h2, b, hload⟩ :
      ∃ ar2 h2 b, loadPinned [oldRec] (emptyHistorian [migH]) 5 0 = .ok (ar2, h2, b) :=
    ⟨_, _, _, rfl⟩
  have H := C8_migration_frame [oldRec] (emptyHistorian [migH]) 5 0 oldRec migH
    [("colour", EncodedNode.prim "red"), ("make", EncodedNode.prim "zonda")]
    ar2 h2 b (by decide) rfl (by decide) (by decide) hload
  exact ⟨ar2, h2, b, hload, H.1, H.2.1⟩

/-! ## C1 — optimistic locking -/

/-- C1 (amended): if a tracked live object's state has changed (its new
content hash differs from the last-saved hash) and the archive's latest
version for its object id has advanced past the object's last known
version, then `save` fails with `ConcurrentModificationError`; the walk is
transactional, so the failed save writes nothing.  The unamended claim is
refuted by `C1_counterexample`: an *unmodified* stale copy saves as a no-op
instead of failing, because the idempotence check precedes the lock check. -/
theorem C1_optimistic_lock (ar : Archive) (h : Historian) (a : Addr)
    (o : LiveObj) (helper : TypeHelper) (i : TrackInfo)
    (hheap : assocFind h.heap a = some o)
    (hres : resolveType h.registry o.typeId = some helper)
    (htr : assocFind h.tracked a = some i)
    (henc : exOk (encodeFields (4 * h.heap.length + 3) ar h.registry h.heap
      h.tracked [a] ⟨[], [], [(a, i.oid)], freshOid ar h⟩ helper o.fields) = true)
    (hchanged : (encodeFields (4 * h.heap.length + 3) ar h.registry h.heap
      h.tracked [a] ⟨[], [], [(a, i.oid)], freshOid ar h⟩ helper o.fields).map
        (fun w => contentHash w.2 helper.type_id) ≠ .ok i.lastHash)
    (hstale : i.lastVersion < (latestVersion ar i.oid).getD i.lastVersion) :
    save ar h a = .error .concurrentModificationError := by
  unfold save
  rw [show saveFuel h = 4 * h.heap.length + 3 + 1 from rfl]
  simp only [depositOne, hheap, hres, htr]
  cases henc2 : encodeFields (4 * h.heap.length + 3) ar h.registry h.heap
      h.tracked [a] ⟨[], [], [(a, i.oid)], freshOid ar h⟩ helper o.fields with
  | error e =>
    rw [henc2] at henc
    simp [exOk] at henc
  | ok w =>
    obtain ⟨st2, s⟩ := w
    rw [henc2] at hchanged
    have hne : contentHash s helper.type_id ≠ i.lastHash := by
      intro hh
      exact hchanged (by simp [Except.map, hh])
    simp only [henc2, hne, if_false, hstale, if_true]

/-- Counterexample to C1 as stated: two copies of the car are loaded
independently, the first writer saves a modification (v0 to v1), and the
second (stale but *unmodified*) copy is saved.  The claim says this save
must fail with `ConcurrentModificationError`; instead it succeeds as an
idempotent no-op, returning the version-0 reference and leaving the archive
unchanged, because the depositor's hash check precedes its lock check. -/
theorem C1_counterexample :
    saveRef c1ar1 c1hw2 c1b = .ok ⟨1, 0⟩ ∧
    saveAr c1ar1 c1hw2 c1b = .ok c1ar1 := by
  constructor <;> decide

/-- C1 witness: the same story with the second copy *modified*: its save
fails with `ConcurrentModificationError`. -/
theorem C1_optimistic_lock_witness :
    save c1ar1 c1hw2m c1b = .error .concurrentModificationError := by
  have H := C1_optimistic_lock c1ar1 c1hw2m c1b
    ⟨1, [("colour", .prim "green")]⟩ carH
    ⟨1, 0, contentHash [("colour", .prim "red")] 1⟩
    (by decide) rfl (by decide) (by decide) (by decide) (by decide)
  exact H

/-! ## Support lemmas: lookups, id bounds, archive histories -/

theorem assocFind_eq_none {κ β : Type} [DecidableEq κ] {l : List (κ × β)}
    {k : κ} (h : assocFind l k = none) : ∀ v, (k, v) ∉ l := by
  induction l with
  | nil => simp
  | cons p r ih =>
    obtain ⟨k1, v1⟩ := p
    by_cases hk : k = k1
    · subst hk; simp [assocFind] at h
    · simp [assocFind, hk] at h
      intro v hv
      rcases List.mem_cons.1 hv with h1 | h1
      · exact hk (by cases h1; rfl)
      · exact ih h v h1

theorem assocFind_isSome_of_mem {κ β : Type} [DecidableEq κ]
    {l : List (κ × β)} {k : κ} {v : β} (h : (k, v) ∈ l) :
    (assocFind l k).isSome := by
  cases hf : assocFind l k with
  | some w => simp
  | none => exact absurd h (assocFind_eq_none hf v)

theorem mem_le_maxOidArchive {ar : Archive} {r : DataRecord} (h : r ∈ ar) :
    r.object_id ≤ maxOidArchive ar := by
  induction ar with
  | nil => simp at h
  | cons d rest ih =>
    have hstep : maxOidArchive (d :: rest) = max d.object_id (maxOidArchive rest) := rfl
    rcases List.mem_cons.1 h with h1 | h1
    · subst h1; rw [hstep]; exact le_max_left _ _
    · rw [hstep]; exact le_trans (ih h1) (le_max_right _ _)

theorem mem_le_maxOidTracked {tr : List (Addr × TrackInfo)} {p : Addr × TrackInfo}
    (h : p ∈ tr) : p.2.oid ≤ maxOidTracked tr := by
  induction tr with
  | nil => simp at h
  | cons d rest ih =>
    have hstep : maxOidTracked (d :: rest) = max d.2.oid (maxOidTracked rest) := rfl
    rcases List.mem_cons.1 h with h1 | h1
    · subst h1; rw [hstep]; exact le_max_left _ _
    · rw [hstep]; exact le_trans (ih h1) (le_max_right _ _)

theorem history_eq_nil_of_gt {ar : Archive} {oid : ObjectId}
    (h : maxOidArchive ar < oid) : history ar oid = [] := by
  rw [history, List.filter_eq_nil_iff]
  intro r hr
  have hle := mem_le_maxOidArchive hr
  intro hcontra
  have heq : r.object_id = oid := of_decide_eq_true hcontra
  exact absurd h (not_lt.2 (heq ▸ hle))

theorem history_append (ar Δ : Archive) (oid : ObjectId) :
    history (ar ++ Δ) oid = history ar oid ++ history Δ oid := by
  simp [history, List.filter_append]

theorem mem_history {ar : Archive} {oid : ObjectId} {r : DataRecord} :
    r ∈ history ar oid ↔ r ∈ ar ∧ r.object_id = oid := by
  simp [history, List.mem_filter]

/-- Under the archive invariant, the latest version of an object id with
`n + 1` records is `n`. -/
theorem latestVersion_AWF {ar : Archive} (hA : AWF ar) (oid : ObjectId) :
    latestVersion ar oid =
      match (history ar oid).length with
      | 0 => none
      | n + 1 => some n := by
  have hv := hA oid
  have heq : latestVersion ar oid =
      ((history ar oid).map (fun r => r.version)).getLast? := by
    rw [List.getLast?_map, latestVersion, getLatest]
  rw [heq, hv]
  cases hh : (history ar oid).length with
  | zero => simp
  | succ n => rw [List.range_succ, List.getLast?_concat]

theorem nextVersion_AWF {ar : Archive} (hA : AWF ar) (oid : ObjectId) :
    nextVersion ar oid = (history ar oid).length := by
  rw [nextVersion, latestVersion_AWF hA]
  cases hh : (history ar oid).length with
  | zero => simp
  | succ n => simp

/-! ## The save walk maintains the transaction invariant -/

theorem assocFind_cons_ne {κ β : Type} [DecidableEq κ] {k k0 : κ} {v : β}
    {l : List (κ × β)} (h : k0 ≠ k) :
    assocFind ((k, v) :: l) k0 = assocFind l k0 := by
  simp [assocFind, h]

theorem assocFind_cons_self {κ β : Type} [DecidableEq κ] (k : κ) (v : β)
    (l : List (κ × β)) : assocFind ((k, v) :: l) k = some v := by
  simp [assocFind]

theorem assocFind_push_keep {κ β : Type} [DecidableEq κ] {k k0 : κ} {v v0 : β}
    {l : List (κ × β)} (hnone : assocFind l k = none)
    (hfind : assocFind l k0 = some v0) :
    assocFind ((k, v) :: l) k0 = some v0 := by
  by_cases hk : k0 = k
  · subst hk; rw [hnone] at hfind; exact Option.noConfusion hfind
  · rw [assocFind_cons_ne hk]; exact hfind

theorem not_mem_fst_of_assocFind_none {κ β : Type} [DecidableEq κ]
    {l : List (κ × β)} {k : κ} (h : assocFind l k = none) :
    k ∉ l.map Prod.fst := by
  intro hmem
  obtain ⟨p, hp, hpe⟩ := List.mem_map.1 hmem
  apply assocFind_eq_none h p.2
  have hpp : p = (k, p.2) := by
    obtain ⟨p1, p2⟩ := p
    simp only at hpe
    subst hpe
    rfl
  rw [← hpp]
  exact hp

/-- A tracked instance that passes the lock check is exactly at the archive's
latest version, so the next version is its last version plus one. -/
theorem tracked_lock_latest {ar : Archive} {tr : List (Addr × TrackInfo)}
    {a : Addr} {i : TrackInfo} (hA : AWF ar) (hTs : TRSound ar tr)
    (htr : assocFind tr a = some i)
    (hlock : ¬ i.lastVersion < (latestVersion ar i.oid).getD i.lastVersion) :
    latestVersion ar i.oid = some i.lastVersion ∧
    nextVersion ar i.oid = i.lastVersion + 1 := by
  obtain ⟨r, hr, hoid, hver⟩ := hTs a i htr
  have hmem : r ∈ history ar i.oid := mem_history.2 ⟨hr, hoid⟩
  have hlen : ∃ n, (history ar i.oid).length = n + 1 := by
    cases hh : history ar i.oid with
    | nil => rw [hh] at hmem; simp at hmem
    | cons d rest => exact ⟨rest.length, by simp⟩
  obtain ⟨n, hn⟩ := hlen
  have hlat : latestVersion ar i.oid = some n := by
    rw [latestVersion_AWF hA, hn]
  have hvin : i.lastVersion ∈ List.range (n + 1) := by
    rw [← hn, ← hA i.oid]
    exact List.mem_map.2 ⟨r, hmem, hver⟩
  have hvlt : i.lastVersion < n + 1 := List.mem_range.1 hvin
  rw [hlat] at hlock
  simp only [Option.getD_some] at hlock
  have hveq : i.lastVersion = n := le_antisymm (Nat.lt_succ_iff.1 hvlt) (not_lt.1 hlock)
  subst hveq
  refine ⟨hlat, ?_⟩
  rw [nextVersion, hlat]

/-- Pushing a provisional entry whose id comes from the tracking map
preserves the walk invariant. -/
theorem WalkInv_push_tracked {ar : Archive} {tr : List (Addr × TrackInfo)}
    {st : WalkSt} {a : Addr} {i : TrackInfo} (hTi : TRInj tr)
    (hI : WalkInv ar tr st) (hnone : assocFind st.prov a = none)
    (htr : assocFind tr a = some i) :
    WalkInv ar tr { st with prov := (a, i.oid) :: st.prov } := by
  obtain ⟨h1, h2, h3, h4, h5, h6⟩ := hI
  have hoid_le : i.oid ≤ maxOidTracked tr :=
    mem_le_maxOidTracked (assocFind_mem htr)
  refine ⟨h1, h2, ?_, ?_, ?_, ?_⟩
  · intro p hp
    rcases List.mem_cons.1 hp with hp1 | hp1
    · subst hp1; exact lt_of_le_of_lt hoid_le h2
    · exact h3 p hp1
  · simp only [List.map_cons]
    exact List.nodup_cons.2 ⟨not_mem_fst_of_assocFind_none hnone, h4⟩
  · simp only [List.map_cons]
    refine List.nodup_cons.2 ⟨?_, h5⟩
    intro hmem
    obtain ⟨p, hp, hpe⟩ := List.mem_map.1 hmem
    have h6p := h6 p hp
    cases hptr : assocFind tr p.1 with
    | some ix =>
      simp only [hptr] at h6p
      have heqa : p.1 = a := hTi p.1 a ix i hptr htr (by rw [← h6p]; exact hpe)
      apply assocFind_eq_none hnone p.2
      have hpp : p = (a, p.2) := by
        obtain ⟨p1, p2⟩ := p
        simp only at heqa
        subst heqa
        rfl
      rw [← hpp]
      exact hp
    | none =>
      simp only [hptr] at h6p
      exact absurd hoid_le (not_le.2 (hpe ▸ h6p.1))
  · intro p hp
    rcases List.mem_cons.1 hp with hp1 | hp1
    · subst hp1
      have h7 : assocFind tr (a, i.oid).1 = some i := htr
      simp only [h7]
    · exact h6 p hp1

/-- Pushing a fresh provisional entry preserves the walk invariant. -/
theorem WalkInv_push_fresh {ar : Archive} {tr : List (Addr × TrackInfo)}
    {st : WalkSt} {a : Addr} (hI : WalkInv ar tr st)
    (hnone : assocFind st.prov a = none)
    (htr : assocFind tr a = none) :
    WalkInv ar tr { st with prov := (a, st.nextOid) :: st.prov,
                            nextOid := st.nextOid + 1 } := by
  obtain ⟨h1, h2, h3, h4, h5, h6⟩ := hI
  refine ⟨Nat.lt_succ_of_lt h1, Nat.lt_succ_of_lt h2, ?_, ?_, ?_, ?_⟩
  · intro p hp
    rcases List.mem_cons.1 hp with hp1 | hp1
    · subst hp1; exact Nat.lt_succ_self _
    · exact Nat.lt_succ_of_lt (h3 p hp1)
  · simp only [List.map_cons]
    exact List.nodup_cons.2 ⟨not_mem_fst_of_assocFind_none hnone, h4⟩
  · simp only [List.map_cons]
    refine List.nodup_cons.2 ⟨?_, h5⟩
    intro hmem
    obtain ⟨p, hp, hpe⟩ := List.mem_map.1 hmem
    have hlt := h3 p hp
    rw [hpe] at hlt
    exact absurd hlt (lt_irrefl _)
  · intro p hp
    rcases List.mem_cons.1 hp with hp1 | hp1
    · subst hp1
      have h7 : assocFind tr (a, st.nextOid).1 = none := htr
      simp only [h7]
      exact ⟨h2, h1⟩
    · exact h6 p hp1

/-! ## State-matching machinery -/

theorem stateMatch_nil (refOk : Addr → ObjectId → Bool)
    (heap : List (Addr × LiveObj)) : stateMatch refOk heap [] [] = true := rfl

theorem stateMatch_cons (refOk : Addr → ObjectId → Bool)
    (heap : List (Addr × LiveObj)) (k1 : String) (v1 : FieldVal)
    (fr : List (String × FieldVal)) (k2 : String) (n2 : EncodedNode)
    (sr : EncodedState) :
    stateMatch refOk heap ((k1, v1) :: fr) ((k2, n2) :: sr) =
      (k1 == k2 && stateMatch.goNode refOk heap v1 n2 &&
       stateMatch refOk heap fr sr) := rfl

theorem goNode_prim (refOk : Addr → ObjectId → Bool)
    (heap : List (Addr × LiveObj)) (v1 v2 : String) :
    stateMatch.goNode refOk heap (.prim v1) (.prim v2) = (v1 == v2) := rfl

theorem goNode_ref (refOk : Addr → ObjectId → Bool)
    (heap : List (Addr × LiveObj)) (b : Addr) (oid : ObjectId) :
    stateMatch.goNode refOk heap (.obj b) (.ref oid) = refOk b oid := rfl

theorem goNode_branch (refOk : Addr → ObjectId → Bool)
    (heap : List (Addr × LiveObj)) (b : Addr) (tid : TypeId)
    (fs : EncodedState) :
    stateMatch.goNode refOk heap (.obj b) (.branch tid fs) =
      (match assocFind heap b with
       | some o => o.typeId == tid && stateMatch refOk heap o.fields fs
       | none => false) := rfl

theorem nodeSize_pos (n : EncodedNode) : 1 ≤ nodeSize n := by
  cases n <;> simp [nodeSize]

theorem goFields_cons (k : String) (n : EncodedNode) (sr : EncodedState) :
    nodeSize.goFields ((k, n) :: sr) = nodeSize n + nodeSize.goFields sr := rfl

/-- Monotonicity of state matching in the reference contract and the heap:
both the list level and the node level are preserved when the reference
contract weakens and heap bindings are preserved. -/
theorem stateMatch_mono (refOk1 refOk2 : Addr → ObjectId → Bool)
    (heap1 heap2 : List (Addr × LiveObj))
    (href : ∀ b o, refOk1 b o = true → refOk2 b o = true)
    (hheap : ∀ b o, assocFind heap1 b = some o → assocFind heap2 b = some o) :
    ∀ N : Nat,
      (∀ n v, nodeSize n ≤ N → stateMatch.goNode refOk1 heap1 v n = true →
         stateMatch.goNode refOk2 heap2 v n = true) ∧
      (∀ s f, nodeSize.goFields s ≤ N → stateMatch refOk1 heap1 f s = true →
         stateMatch refOk2 heap2 f s = true) := by
  intro N
  induction N with
  | zero =>
    constructor
    · intro n v hsz
      exact absurd hsz (by have := nodeSize_pos n; omega)
    · intro s f hsz hm
      cases s with
      | nil =>
        cases f with
        | nil => exact rfl
        | cons kv fr => exact Bool.noConfusion hm
      | cons kn sr =>
        obtain ⟨k2, n2⟩ := kn
        rw [goFields_cons] at hsz
        have := nodeSize_pos n2
        omega
  | succ N ih =>
    have node_part : ∀ n v, nodeSize n ≤ N + 1 →
        stateMatch.goNode refOk1 heap1 v n = true →
        stateMatch.goNode refOk2 heap2 v n = true := by
      intro n v hsz hm
      cases n with
      | prim v2 =>
        cases v with
        | prim v1 => exact hm
        | obj b => exact Bool.noConfusion hm
      | ref oid =>
        cases v with
        | prim v1 => exact Bool.noConfusion hm
        | obj b =>
          rw [goNode_ref] at hm
          rw [goNode_ref]
          exact href b oid hm
      | branch tid fs =>
        cases v with
        | prim v1 => exact Bool.noConfusion hm
        | obj b =>
          rw [goNode_branch] at hm
          rw [goNode_branch]
          cases hb : assocFind heap1 b with
          | none => rw [hb] at hm; exact Bool.noConfusion hm
          | some o =>
            rw [hb] at hm
            rw [hheap b o hb]
            simp only [Bool.and_eq_true] at hm ⊢
            refine ⟨hm.1, ?_⟩
            have hfs : nodeSize.goFields fs ≤ N := by
              simp only [nodeSize] at hsz
              omega
            exact ih.2 fs o.fields hfs hm.2
    refine ⟨node_part, ?_⟩
    intro s
    induction s with
    | nil =>
      intro f hsz hm
      cases f with
      | nil => exact rfl
      | cons kv fr => exact Bool.noConfusion hm
    | cons kn sr ihs =>
      intro f hsz hm
      obtain ⟨k2, n2⟩ := kn
      cases f with
      | nil => exact Bool.noConfusion hm
      | cons kv fr =>
        obtain ⟨k1, v1⟩ := kv
        rw [stateMatch_cons] at hm
        rw [stateMatch_cons]
        simp only [Bool.and_eq_true] at hm ⊢
        rw [goFields_cons] at hsz
        have hn2 : nodeSize n2 ≤ N + 1 := by omega
        have hsr : nodeSize.goFields sr ≤ N + 1 := by
          have := nodeSize_pos n2
          omega
        exact ⟨⟨hm.1.1, node_part n2 v1 hn2 hm.1.2⟩, ihs fr hsr hm.2⟩

/-- Monotonicity of mid-save state matching in the provisional map. -/
theorem provMatch_mono {heap : List (Addr × LiveObj)}
    {prov prov2 : List (Addr × ObjectId)}
    (hm : ∀ x o, assocFind prov x = some o → assocFind prov2 x = some o)
    {f : List (String × FieldVal)} {s : EncodedState}
    (h : provMatch heap prov f s = true) : provMatch heap prov2 f s = true := by
  refine (stateMatch_mono _ _ heap heap ?_ (fun b o hb => hb)
    (nodeSize.goFields s)).2 s f (le_refl _) h
  intro b o hb
  rw [beq_iff_eq] at hb ⊢
  exact hm b o hb

/-- A provisional-map state match becomes an identity-map state match once
every provisional id is realised in the session's tracking. -/
theorem provMatch_to_fieldsMatch {heap : List (Addr × LiveObj)}
    {prov : List (Addr × ObjectId)} {tr : List (Addr × TrackInfo)}
    (htie : ∀ x o, assocFind prov x = some o → trOid tr x = some o)
    {f : List (String × FieldVal)} {s : EncodedState}
    (h : provMatch heap prov f s = true) : fieldsMatch heap tr f s = true := by
  refine (stateMatch_mono _ _ heap heap ?_ (fun b o hb => hb)
    (nodeSize.goFields s)).2 s f (le_refl _) h
  intro b o hb
  rw [beq_iff_eq] at hb ⊢
  exact htie b o hb

/-- Monotonicity of the session-level state match under session extension. -/
theorem fieldsMatch_mono {heap heap2 : List (Addr × LiveObj)}
    {tr tr2 : List (Addr × TrackInfo)}
    (htr : ∀ a i, assocFind tr a = some i → assocFind tr2 a = some i)
    (hheap : ∀ a o, assocFind heap a = some o → assocFind heap2 a = some o)
    {f : List (String × FieldVal)} {s : EncodedState}
    (h : fieldsMatch heap tr f s = true) : fieldsMatch heap2 tr2 f s = true := by
  refine (stateMatch_mono _ _ heap heap2 ?_ hheap
    (nodeSize.goFields s)).2 s f (le_refl _) h
  intro b o hb
  rw [beq_iff_eq] at hb ⊢
  rw [trOid] at hb ⊢
  cases hf : assocFind tr b with
  | none => rw [hf] at hb; exact Option.noConfusion hb
  | some i =>
    rw [hf] at hb
    rw [htr b i hf]
    exact hb

/-- Node-level monotonicity under session extension. -/
theorem goNodeTr_mono {heap heap2 : List (Addr × LiveObj)}
    {tr tr2 : List (Addr × TrackInfo)}
    (htr : ∀ a i, assocFind tr a = some i → assocFind tr2 a = some i)
    (hheap : ∀ a o, assocFind heap a = some o → assocFind heap2 a = some o)
    {v : FieldVal} {n : EncodedNode}
    (h : stateMatch.goNode (fun b oid => trOid tr b == some oid) heap v n = true) :
    stateMatch.goNode (fun b oid => trOid tr2 b == some oid) heap2 v n = true := by
  refine (stateMatch_mono _ _ heap heap2 ?_ hheap (nodeSize n)).1 n v (le_refl _) h
  intro b o hb
  rw [beq_iff_eq] at hb ⊢
  rw [trOid] at hb ⊢
  cases hf : assocFind tr b with
  | none => rw [hf] at hb; exact Option.noConfusion hb
  | some i =>
    rw [hf] at hb
    rw [htr b i hf]
    exact hb

/-- A resolved helper carries the type id it was resolved for. -/
theorem resolveType_type_id {reg : List TypeHelper} {tid : TypeId}
    {helper : TypeHelper} (h : resolveType reg tid = some helper) :
    helper.type_id = tid := by
  have := List.find?_some h
  exact of_decide_eq_true this

/-- First-match lookup returns the stored value when keys are unique. -/
theorem assocFind_of_mem_nodup {κ β : Type} [DecidableEq κ]
    {l : List (κ × β)} {k : κ} {v : β}
    (hnd : (l.map Prod.fst).Nodup) (hmem : (k, v) ∈ l) :
    assocFind l k = some v := by
  induction l with
  | nil => simp at hmem
  | cons p r ih =>
    obtain ⟨k1, v1⟩ := p
    simp only [List.map_cons, List.nodup_cons] at hnd
    rcases List.mem_cons.1 hmem with h1 | h1
    · obtain ⟨rfl, rfl⟩ := Prod.mk.injEq .. ▸ h1
      · exact assocFind_cons_self k v r
    · have hne : k ≠ k1 := by
        intro hk
        subst hk
        exact hnd.1 (List.mem_map.2 ⟨(k, v), h1, rfl⟩)
      rw [assocFind_cons_ne hne]
      exact ih hnd.2 h1

/-- A lookup value determines its key when stored values are unique. -/
theorem assocFind_inj_snd {κ β : Type} [DecidableEq κ]
    {l : List (κ × β)} (hnd : (l.map Prod.snd).Nodup) :
    ∀ {k1 k2 : κ} {v : β}, assocFind l k1 = some v →
      assocFind l k2 = some v → k1 = k2 := by
  induction l with
  | nil => intro k1 k2 v h1; exact Option.noConfusion h1
  | cons p r ih =>
    obtain ⟨k0, v0⟩ := p
    simp only [List.map_cons, List.nodup_cons] at hnd
    intro k1 k2 v h1 h2
    by_cases e1 : k1 = k0 <;> by_cases e2 : k2 = k0
    · rw [e1, e2]
    · subst e1
      rw [assocFind_cons_self] at h1
      rw [assocFind_cons_ne e2] at h2
      obtain rfl : v0 = v := by cases h1; rfl
      exact absurd (List.mem_map.2 ⟨_, assocFind_mem h2, rfl⟩) hnd.1
    · subst e2
      rw [assocFind_cons_self] at h2
      rw [assocFind_cons_ne e1] at h1
      obtain rfl : v0 = v := by cases h2; rfl
      exact absurd (List.mem_map.2 ⟨_, assocFind_mem h1, rfl⟩) hnd.1
    · rw [assocFind_cons_ne e1] at h1
      rw [assocFind_cons_ne e2] at h2
      exact ih hnd.2 h1 h2

/-- Right-hand members of a `Forall₂` have related left partners. -/
theorem forall₂_mem_right {α β : Type} {R : α → β → Prop} :
    ∀ {l1 : List α} {l2 : List β}, List.Forall₂ R l1 l2 → ∀ b ∈ l2,
      ∃ a ∈ l1, R a b := by
  intro l1 l2 h
  induction h with
  | nil => intro b hb; simp at hb
  | cons hab _ ih =>
    intro b hb
    rcases List.mem_cons.1 hb with h1 | h1
    · subst h1; exact ⟨_, List.mem_cons_self _ _, hab⟩
    · obtain ⟨a, ha, har⟩ := ih b h1
      exact ⟨a, List.mem_cons_of_mem _ ha, har⟩

/-- Left-hand members of a `Forall₂` have related right partners. -/
theorem forall₂_mem_left {α β : Type} {R : α → β → Prop} :
    ∀ {l1 : List α} {l2 : List β}, List.Forall₂ R l1 l2 → ∀ a ∈ l1,
      ∃ b ∈ l2, R a b := by
  intro l1 l2 h
  induction h with
  | nil => intro a ha; simp at ha
  | cons hab _ ih =>
    intro a ha
    rcases List.mem_cons.1 ha with h1 | h1
    · subst h1; exact ⟨_, List.mem_cons_self _ _, hab⟩
    · obtain ⟨b, hb, hbr⟩ := ih a h1
      exact ⟨b, List.mem_cons_of_mem _ hb, hbr⟩

/-! ## Step equations of the save walk -/

theorem encodeFields_nil (fuel : Nat) (ar : Archive) (reg : List TypeHelper)
    (heap : List (Addr × LiveObj)) (tr : List (Addr × TrackInfo))
    (inprog : List Addr) (st : WalkSt) (helper : TypeHelper) :
    encodeFields (fuel + 1) ar reg heap tr inprog st helper [] = .ok (st, []) := rfl

theorem encodeFields_cons_prim (fuel : Nat) (ar : Archive) (reg : List TypeHelper)
    (heap : List (Addr × LiveObj)) (tr : List (Addr × TrackInfo))
    (inprog : List Addr) (st : WalkSt) (helper : TypeHelper) (k : String)
    (v : String) (rest : List (String × FieldVal)) :
    encodeFields (fuel + 1) ar reg heap tr inprog st helper ((k, .prim v) :: rest) =
      match encodeFields (fuel + 1) ar reg heap tr inprog st helper rest with
      | .error e => .error e
      | .ok (st3, s) => .ok (st3, (k, EncodedNode.prim v) :: s) := rfl

theorem encodeFields_cons_obj (fuel : Nat) (ar : Archive) (reg : List TypeHelper)
    (heap : List (Addr × LiveObj)) (tr : List (Addr × TrackInfo))
    (inprog : List Addr) (st : WalkSt) (helper : TypeHelper) (k : String)
    (b : Addr) (rest : List (String × FieldVal)) :
    encodeFields (fuel + 1) ar reg heap tr inprog st helper ((k, .obj b) :: rest) =
      (if k ∈ helper.refFields then
        match assocFind st.prov b with
        | some oid =>
          match encodeFields (fuel + 1) ar reg heap tr inprog st helper rest with
          | .error e => .error e
          | .ok (st3, s) => .ok (st3, (k, EncodedNode.ref oid) :: s)
        | none =>
          match depositOne fuel ar reg heap tr inprog st b with
          | .error e => .error e
          | .ok (st2, oid, _) =>
            match encodeFields (fuel + 1) ar reg heap tr inprog st2 helper rest with
            | .error e => .error e
            | .ok (st3, s) => .ok (st3, (k, EncodedNode.ref oid) :: s)
      else
        if b ∈ inprog then .error .cyclicValueEmbeddingError
        else
          match encodeValue fuel ar reg heap tr (b :: inprog) st b with
          | .error e => .error e
          | .ok (st2, node) =>
            match encodeFields (fuel + 1) ar reg heap tr inprog st2 helper rest with
            | .error e => .error e
            | .ok (st3, s) => .ok (st3, (k, node) :: s)) := rfl

/-! ## The transaction-growth relation is reflexive and composes -/

theorem WalkGrows_refl (ar : Archive) (reg : List TypeHelper)
    (heap : List (Addr × LiveObj)) (tr : List (Addr × TrackInfo))
    (st : WalkSt) : WalkGrows ar reg heap tr st st := by
  refine ⟨le_refl _, fun x p hp => hp, [], [], rfl, rfl, List.Forall₂.nil,
    List.Forall₂.nil, ?_, ?_, ?_, ?_⟩
  · intro xt hxt; simp at hxt
  · simp
  · intro rec hrec; simp at hrec
  · intro x o ho; exact Or.inl ho

theorem WalkGrows_trans {ar : Archive} {reg : List TypeHelper}
    {heap : List (Addr × LiveObj)} {tr : List (Addr × TrackInfo)}
    {st st1 st2 : WalkSt} (g1 : WalkGrows ar reg heap tr st st1)
    (g2 : WalkGrows ar reg heap tr st1 st2) : WalkGrows ar reg heap tr st st2 := by
  obtain ⟨n1, m1, T1, R1, hT1, hR1, al1, en1, fr1, nd1, rc1, tie1⟩ := g1
  obtain ⟨n2, m2, T2, R2, hT2, hR2, al2, en2, fr2, nd2, rc2, tie2⟩ := g2
  refine ⟨le_trans n1 n2, fun x p hp => m2 _ _ (m1 _ _ hp),
    T2 ++ T1, R2 ++ R1, ?_, ?_, ?_, ?_, ?_, ?_, ?_, ?_⟩
  · rw [hT2, hT1, List.append_assoc]
  · rw [hR2, hR1, List.append_assoc]
  · exact List.rel_append al2 al1
  · refine List.rel_append en2 (List.Forall₂.imp ?_ en1)
    intro rec xt hst
    obtain ⟨o, hl, ho, hres, ht, hsv, hpm⟩ := hst
    exact ⟨o, hl, ho, hres, ht, hsv, provMatch_mono m2 hpm⟩
  · intro xt hxt
    rcases List.mem_append.1 hxt with hin | hin
    · refine ⟨?_, (fr2 xt hin).2.1, (fr2 xt hin).2.2⟩
      cases hfind : assocFind st.prov xt.1 with
      | none => rfl
      | some p =>
        have := m1 _ _ hfind
        rw [(fr2 xt hin).1] at this
        exact Option.noConfusion this
    · exact ⟨(fr1 xt hin).1, m2 _ _ (fr1 xt hin).2.1, (fr1 xt hin).2.2⟩
  · rw [List.map_append]
    rw [List.nodup_append]
    refine ⟨nd2, nd1, ?_⟩
    intro x hx2 hx1
    obtain ⟨xt2, hxt2, hxeq2⟩ := List.mem_map.1 hx2
    obtain ⟨xt1, hxt1, hxeq1⟩ := List.mem_map.1 hx1
    have h1 := (fr1 xt1 hxt1).2.1
    have h2 := (fr2 xt2 hxt2).1
    rw [hxeq1] at h1
    rw [hxeq2] at h2
    rw [h1] at h2
    exact Option.noConfusion h2
  · intro rec hrec
    rcases List.mem_append.1 hrec with hin | hin
    · exact rc2 rec hin
    · exact rc1 rec hin
  · intro x o ho
    rcases tie2 x o ho with h1 | h1 | h1
    · rcases tie1 x o h1 with hh | hh | hh
      · exact Or.inl hh
      · exact Or.inr (Or.inl hh)
      · obtain ⟨xt, hxt, he⟩ := hh
        exact Or.inr (Or.inr ⟨xt, List.mem_append.2 (Or.inr hxt), he⟩)
    · exact Or.inr (Or.inl h1)
    · obtain ⟨xt, hxt, he⟩ := h1
      exact Or.inr (Or.inr ⟨xt, List.mem_append.2 (Or.inl hxt), he⟩)

/-! ## Composing the growth relation across a deposit level -/

theorem WalkGrows_push_prov (ar : Archive) (reg : List TypeHelper)
    (heap : List (Addr × LiveObj)) (tr : List (Addr × TrackInfo))
    (st : WalkSt) (a : Addr) (oid n2 : ObjectId)
    (hnone : assocFind st.prov a = none) (hn : st.nextOid ≤ n2)
    (hio : ∃ i, assocFind tr a = some i ∧ i.oid = oid) :
    WalkGrows ar reg heap tr st
      ⟨st.staged, st.stagedTrack, (a, oid) :: st.prov, n2⟩ := by
  refine ⟨hn, ?_, [], [], rfl, rfl, List.Forall₂.nil, List.Forall₂.nil,
    ?_, ?_, ?_, ?_⟩
  · intro x p hp
    exact assocFind_push_keep hnone hp
  · intro xt hxt; simp at hxt
  · simp
  · intro rec hrec; simp at hrec
  · intro x o ho
    by_cases hx : x = a
    · subst hx
      rw [assocFind_cons_self] at ho
      obtain rfl : oid = o := by cases ho; rfl
      exact Or.inr (Or.inl hio)
    · rw [assocFind_cons_ne hx] at ho
      exact Or.inl ho

/-- Staging a freshly encoded record on top of a grown transaction yields a
growth step from the original state. -/
theorem WalkGrows_stage (ar : Archive) (reg : List TypeHelper)
    (heap : List (Addr × LiveObj)) (tr : List (Addr × TrackInfo))
    (st : WalkSt) (a : Addr) (oid n2 : ObjectId) (st2 : WalkSt)
    (ver : Version) (s : EncodedState) (o : LiveObj) (helper : TypeHelper)
    (hnone : assocFind st.prov a = none)
    (ho : assocFind heap a = some o)
    (hres : resolveType reg o.typeId = some helper)
    (hn : st.nextOid ≤ n2)
    (hg : WalkGrows ar reg heap tr
      ⟨st.staged, st.stagedTrack, (a, oid) :: st.prov, n2⟩ st2)
    (hver : ver = nextVersion ar oid)
    (hpm : provMatch heap st2.prov o.fields s = true) :
    WalkGrows ar reg heap tr st
      { st2 with
        staged := ⟨oid, helper.type_id, 0, ver, s, helper.schema_version,
                   contentHash s helper.type_id, 0⟩ :: st2.staged,
        stagedTrack :=
          (a, ⟨oid, ver, contentHash s helper.type_id⟩) :: st2.stagedTrack } ∧
    assocFind st2.prov a = some oid := by
  obtain ⟨n1, m1, T1, R1, hT1, hR1, al1, en1, fr1, nd1, rc1, tie1⟩ := hg
  have hlook : assocFind st2.prov a = some oid :=
    m1 a oid (assocFind_cons_self a oid st.prov)
  refine ⟨⟨le_trans hn n1, ?_,
    (a, ⟨oid, ver, contentHash s helper.type_id⟩) :: T1,
    ⟨oid, helper.type_id, 0, ver, s, helper.schema_version,
     contentHash s helper.type_id, 0⟩ :: R1,
    ?_, ?_, ?_, ?_, ?_, ?_, ?_, ?_⟩, hlook⟩
  · intro x p hp
    exact m1 x p (assocFind_push_keep hnone hp)
  · simp only [List.cons_append]
    rw [hT1]
  · simp only [List.cons_append]
    rw [hR1]
  · exact List.Forall₂.cons ⟨rfl, rfl, rfl⟩ al1
  · exact List.Forall₂.cons ⟨o, helper, ho, hres, rfl, rfl, hpm⟩ en1
  · intro xt hxt
    rcases List.mem_cons.1 hxt with hx1 | hx1
    · subst hx1
      exact ⟨hnone, hlook, by rw [ho]; rfl⟩
    · refine ⟨?_, (fr1 xt hx1).2.1, (fr1 xt hx1).2.2⟩
      have hn1 := (fr1 xt hx1).1
      cases hfind : assocFind st.prov xt.1 with
      | none => rfl
      | some p =>
        rw [show assocFind ((a, oid) :: st.prov) xt.1 = some p from
          assocFind_push_keep hnone hfind] at hn1
        exact Option.noConfusion hn1
  · simp only [List.map_cons]
    refine List.nodup_cons.2 ⟨?_, nd1⟩
    intro hmem
    obtain ⟨xt, hxt, hxe⟩ := List.mem_map.1 hmem
    have hn1 := (fr1 xt hxt).1
    rw [hxe, assocFind_cons_self] at hn1
    exact Option.noConfusion hn1
  · intro rec hrec
    rcases List.mem_cons.1 hrec with hx1 | hx1
    · subst hx1
      exact ⟨hver, rfl⟩
    · exact rc1 rec hx1
  · intro x o2 ho2
    rcases tie1 x o2 ho2 with h1 | h1 | h1
    · by_cases hx : x = a
      · subst hx
        rw [assocFind_cons_self] at h1
        obtain rfl : oid = o2 := by cases h1; rfl
        exact Or.inr (Or.inr ⟨(x, ⟨oid, ver, contentHash s helper.type_id⟩),
          List.mem_cons_self _ _, rfl, rfl⟩)
      · rw [assocFind_cons_ne hx] at h1
        exact Or.inl h1
    · exact Or.inr (Or.inl h1)
    · obtain ⟨xt, hxt, he⟩ := h1
      exact Or.inr (Or.inr ⟨xt, List.mem_cons_of_mem _ hxt, he⟩)

/-! ## The save-walk master lemma -/

/-- Over a well-formed archive and a sound, injective tracking map, every
successful step of the save walk preserves the walk invariant and grows the
transaction according to `WalkGrows`; a successful deposit records the
deposited address in the provisional map under the returned id, a
successful field encoding matches the encoded fields against the live ones
through the provisional map, and a successful by-value embedding produces a
branch node matching the embedded live object. -/
theorem saveWalk_master (ar : Archive) (reg : List TypeHelper)
    (heap : List (Addr × LiveObj)) (tr : List (Addr × TrackInfo))
    (hA : AWF ar) (hTs : TRSound ar tr) (hTi : TRInj tr) :
    ∀ fuel : Nat,
      (∀ inprog st a st2 oid v, WalkInv ar tr st →
         assocFind st.prov a = none →
         depositOne fuel ar reg heap tr inprog st a = .ok (st2, oid, v) →
         WalkInv ar tr st2 ∧ WalkGrows ar reg heap tr st st2 ∧
         assocFind st2.prov a = some oid) ∧
      (∀ inprog helper fields st st2 s, WalkInv ar tr st →
         encodeFields fuel ar reg heap tr inprog st helper fields = .ok (st2, s) →
         WalkInv ar tr st2 ∧ WalkGrows ar reg heap tr st st2 ∧
         provMatch heap st2.prov fields s = true) ∧
      (∀ inprog st b st2 node, WalkInv ar tr st →
         encodeValue fuel ar reg heap tr inprog st b = .ok (st2, node) →
         WalkInv ar tr st2 ∧ WalkGrows ar reg heap tr st st2 ∧
         stateMatch.goNode (fun x oid => assocFind st2.prov x == some oid)
           heap (.obj b) node = true) := by
  intro fuel
  induction fuel with
  | zero =>
    refine ⟨?_, ?_, ?_⟩
    · intro inprog st a st2 oid v hI hnone heq
      exact Except.noConfusion heq
    · intro inprog helper fields st st2 s hI heq
      exact Except.noConfusion heq
    · intro inprog st b st2 node hI heq
      exact Except.noConfusion heq
  | succ fuel ih =>
    obtain ⟨ihD, ihF, ihV⟩ := ih
    refine ⟨?_, ?_, ?_⟩
    · -- depositOne
      intro inprog st a st2 oid v hI hnone heq
      cases hheap : assocFind heap a with
      | none =>
        simp only [depositOne, hheap] at heq
        exact Except.noConfusion heq
      | some obj =>
        cases hres : resolveType reg obj.typeId with
        | none =>
          simp only [depositOne, hheap, hres] at heq
          exact Except.noConfusion heq
        | some helper =>
          cases htr : assocFind tr a with
          | some i =>
            simp only [depositOne, hheap, hres, htr] at heq
            cases henc : encodeFields fuel ar reg heap tr (a :: inprog)
                { st with prov := (a, i.oid) :: st.prov } helper obj.fields with
            | error e =>
              simp only [henc] at heq
              exact Except.noConfusion heq
            | ok p =>
              obtain ⟨st2', s⟩ := p
              simp only [henc] at heq
              have hI1 : WalkInv ar tr { st with prov := (a, i.oid) :: st.prov } :=
                WalkInv_push_tracked hTi hI hnone htr
              have hF := ihF (a :: inprog) helper obj.fields
                { st with prov := (a, i.oid) :: st.prov } st2' s hI1 henc
              by_cases hhash : contentHash s helper.type_id = i.lastHash
              · rw [if_pos hhash] at heq
                cases heq
                have g01 : WalkGrows ar reg heap tr st
                    { st with prov := (a, i.oid) :: st.prov } :=
                  WalkGrows_push_prov ar reg heap tr st a i.oid st.nextOid hnone
                    (le_refl _) ⟨i, htr, rfl⟩
                refine ⟨hF.1, WalkGrows_trans g01 hF.2.1, ?_⟩
                exact hF.2.1.2.1 a i.oid (assocFind_cons_self a i.oid st.prov)
              · rw [if_neg hhash] at heq
                by_cases hlock :
                    i.lastVersion < (latestVersion ar i.oid).getD i.lastVersion
                · rw [if_pos hlock] at heq
                  exact Except.noConfusion heq
                · rw [if_neg hlock] at heq
                  cases heq
                  have hver : i.lastVersion + 1 = nextVersion ar i.oid :=
                    (tracked_lock_latest hA hTs htr hlock).2.symm
                  have hstage := WalkGrows_stage ar reg heap tr st a i.oid
                    st.nextOid st2' (i.lastVersion + 1) s obj helper
                    hnone hheap hres (le_refl _) hF.2.1 hver hF.2.2
                  exact ⟨hF.1, hstage.1, hstage.2⟩
          | none =>
            simp only [depositOne, hheap, hres, htr] at heq
            cases henc : encodeFields fuel ar reg heap tr (a :: inprog)
                { st with prov := (a, st.nextOid) :: st.prov,
                          nextOid := st.nextOid + 1 } helper obj.fields with
            | error e =>
              simp only [henc] at heq
              exact Except.noConfusion heq
            | ok p =>
              obtain ⟨st2', s⟩ := p
              simp only [henc] at heq
              cases heq
              have hI1 : WalkInv ar tr
                  { st with prov := (a, st.nextOid) :: st.prov,
                            nextOid := st.nextOid + 1 } :=
                WalkInv_push_fresh hI hnone htr
              have hF := ihF (a :: inprog) helper obj.fields
                { st with prov := (a, st.nextOid) :: st.prov,
                          nextOid := st.nextOid + 1 } st2' s hI1 henc
              have hver : (0 : Version) = nextVersion ar st.nextOid := by
                rw [nextVersion_AWF hA, history_eq_nil_of_gt hI.1]
                rfl
              have hstage := WalkGrows_stage ar reg heap tr st a st.nextOid
                (st.nextOid + 1) st2' 0 s obj helper
                hnone hheap hres (Nat.le_succ _) hF.2.1 hver hF.2.2
              exact ⟨hF.1, hstage.1, hstage.2⟩
    · -- encodeFields
      intro inprog helper fields
      induction fields with
      | nil =>
        intro st st2 s hI heq
        rw [encodeFields_nil] at heq
        cases heq
        exact ⟨hI, WalkGrows_refl ar reg heap tr st, rfl⟩
      | cons kv rest ihrest =>
        intro st st2 s hI heq
        obtain ⟨k, fv⟩ := kv
        cases fv with
        | prim vv =>
          rw [encodeFields_cons_prim] at heq
          cases hrest : encodeFields (fuel + 1) ar reg heap tr inprog st
              helper rest with
          | error e =>
            simp only [hrest] at heq
            exact Except.noConfusion heq
          | ok p =>
            obtain ⟨st3, s3⟩ := p
            simp only [hrest] at heq
            cases heq
            have hR := ihrest st st2 s3 hI hrest
            refine ⟨hR.1, hR.2.1, ?_⟩
            rw [show provMatch heap st2.prov ((k, FieldVal.prim vv) :: rest)
                ((k, EncodedNode.prim vv) :: s3) =
              (k == k && stateMatch.goNode
                (fun x oid => assocFind st2.prov x == some oid) heap
                (.prim vv) (.prim vv) &&
               provMatch heap st2.prov rest s3) from rfl]
            simp only [Bool.and_eq_true, beq_self_eq_true]
            exact ⟨⟨trivial, by rw [goNode_prim, beq_self_eq_true]⟩, hR.2.2⟩
        | obj b =>
          rw [encodeFields_cons_obj] at heq
          by_cases href : k ∈ helper.refFields
          · rw [if_pos href] at heq
            cases hprov : assocFind st.prov b with
            | some oid0 =>
              simp only [hprov] at heq
              cases hrest : encodeFields (fuel + 1) ar reg heap tr inprog st
                  helper rest with
              | error e =>
                simp only [hrest] at heq
                exact Except.noConfusion heq
              | ok p =>
                obtain ⟨st3, s3⟩ := p
                simp only [hrest] at heq
                cases heq
                have hR := ihrest st st2 s3 hI hrest
                refine ⟨hR.1, hR.2.1, ?_⟩
                rw [show provMatch heap st2.prov ((k, FieldVal.obj b) :: rest)
                    ((k, EncodedNode.ref oid0) :: s3) =
                  (k == k && stateMatch.goNode
                    (fun x oid => assocFind st2.prov x == some oid) heap
                    (.obj b) (.ref oid0) &&
                   provMatch heap st2.prov rest s3) from rfl]
                simp only [Bool.and_eq_true, beq_self_eq_true]
                refine ⟨⟨trivial, ?_⟩, hR.2.2⟩
                rw [goNode_ref, beq_iff_eq]
                exact hR.2.1.2.1 b oid0 hprov
            | none =>
              simp only [hprov] at heq
              cases hdep : depositOne fuel ar reg heap tr inprog st b with
              | error e =>
                simp only [hdep] at heq
                exact Except.noConfusion heq
              | ok p =>
                obtain ⟨st2', oid0, v0⟩ := p
                simp only [hdep] at heq
                have hD := ihD inprog st b st2' oid0 v0 hI hprov hdep
                cases hrest : encodeFields (fuel + 1) ar reg heap tr inprog st2'
                    helper rest with
                | error e =>
                  simp only [hrest] at heq
                  exact Except.noConfusion heq
                | ok p2 =>
                  obtain ⟨st3, s3⟩ := p2
                  simp only [hrest] at heq
                  cases heq
                  have hR := ihrest st2' st2 s3 hD.1 hrest
                  refine ⟨hR.1, WalkGrows_trans hD.2.1 hR.2.1, ?_⟩
                  rw [show provMatch heap st2.prov ((k, FieldVal.obj b) :: rest)
                      ((k, EncodedNode.ref oid0) :: s3) =
                    (k == k && stateMatch.goNode
                      (fun x oid => assocFind st2.prov x == some oid) heap
                      (.obj b) (.ref oid0) &&
                     provMatch heap st2.prov rest s3) from rfl]
                  simp only [Bool.and_eq_true, beq_self_eq_true]
                  refine ⟨⟨trivial, ?_⟩, hR.2.2⟩
                  rw [goNode_ref, beq_iff_eq]
                  exact hR.2.1.2.1 b oid0 hD.2.2
          · rw [if_neg href] at heq
            by_cases hinp : b ∈ inprog
            · rw [if_pos hinp] at heq
              exact Except.noConfusion heq
            · rw [if_neg hinp] at heq
              cases hval : encodeValue fuel ar reg heap tr (b :: inprog) st b with
              | error e =>
                simp only [hval] at heq
                exact Except.noConfusion heq
              | ok p =>
                obtain ⟨st2', node⟩ := p
                simp only [hval] at heq
                have hV := ihV (b :: inprog) st b st2' node hI hval
                cases hrest : encodeFields (fuel + 1) ar reg heap tr inprog st2'
                    helper rest with
                | error e =>
                  simp only [hrest] at heq
                  exact Except.noConfusion heq
                | ok p2 =>
                  obtain ⟨st3, s3⟩ := p2
                  simp only [hrest] at heq
                  cases heq
                  have hR := ihrest st2' st2 s3 hV.1 hrest
                  refine ⟨hR.1, WalkGrows_trans hV.2.1 hR.2.1, ?_⟩
                  rw [show provMatch heap st2.prov ((k, FieldVal.obj b) :: rest)
                      ((k, node) :: s3) =
                    (k == k && stateMatch.goNode
                      (fun x oid => assocFind st2.prov x == some oid) heap
                      (.obj b) node &&
                     provMatch heap st2.prov rest s3) from rfl]
                  simp only [Bool.and_eq_true, beq_self_eq_true]
                  refine ⟨⟨trivial, ?_⟩, hR.2.2⟩
                  refine (stateMatch_mono _ _ heap heap ?_ (fun x o hx => hx)
                    (nodeSize node)).1 node (.obj b) (le_refl _) hV.2.2
                  intro x o hx
                  rw [beq_iff_eq] at hx ⊢
                  exact hR.2.1.2.1 x o hx
    · -- encodeValue
      intro inprog st b st2 node hI heq
      cases hheap : assocFind heap b with
      | none =>
        simp only [encodeValue, hheap] at heq
        exact Except.noConfusion heq
      | some obj =>
        cases hres : resolveType reg obj.typeId with
        | none =>
          simp only [encodeValue, hheap, hres] at heq
          exact Except.noConfusion heq
        | some helper2 =>
          simp only [encodeValue, hheap, hres] at heq
          cases henc : encodeFields fuel ar reg heap tr inprog st helper2
              obj.fields with
          | error e =>
            simp only [henc] at heq
            exact Except.noConfusion heq
          | ok p =>
            obtain ⟨st2', s⟩ := p
            simp only [henc] at heq
            cases heq
            have hF := ihF inprog helper2 obj.fields st st2 s hI henc
            refine ⟨hF.1, hF.2.1, ?_⟩
            rw [goNode_branch, hheap]
            simp only [Bool.and_eq_true]
            refine ⟨?_, hF.2.2⟩
            rw [beq_iff_eq]
            exact (resolveType_type_id hres).symm

/-! ## Committing a save: archive and session invariants are preserved -/

theorem assocFind_append_left {κ β : Type} [DecidableEq κ]
    {l1 l2 : List (κ × β)} {k : κ} {v : β} (h : assocFind l1 k = some v) :
    assocFind (l1 ++ l2) k = some v := by
  induction l1 with
  | nil => exact Option.noConfusion h
  | cons p r ih =>
    obtain ⟨k1, v1⟩ := p
    by_cases hk : k = k1
    · subst hk
      rw [assocFind_cons_self] at h
      rw [List.cons_append, assocFind_cons_self]
      exact h
    · rw [assocFind_cons_ne hk] at h
      rw [List.cons_append, assocFind_cons_ne hk]
      exact ih h

theorem assocFind_append_right {κ β : Type} [DecidableEq κ]
    {l1 : List (κ × β)} (l2 : List (κ × β)) {k : κ}
    (h : assocFind l1 k = none) :
    assocFind (l1 ++ l2) k = assocFind l2 k := by
  induction l1 with
  | nil => rfl
  | cons p r ih =>
    obtain ⟨k1, v1⟩ := p
    by_cases hk : k = k1
    · subst hk
      rw [assocFind_cons_self] at h
      exact Option.noConfusion h
    · rw [assocFind_cons_ne hk] at h
      rw [List.cons_append, assocFind_cons_ne hk]
      exact ih h

theorem history_singleton (r : DataRecord) (oid : ObjectId) :
    history [r] oid = if r.object_id = oid then [r] else [] := by
  by_cases hc : r.object_id = oid <;> simp [history, hc]

/-- Appending one record carrying the next version preserves the archive
invariant. -/
theorem AWF_extend_one {ar : Archive} {r : DataRecord} (hA : AWF ar)
    (hv : r.version = (history ar r.object_id).length) : AWF (ar ++ [r]) := by
  intro oid
  rw [history_append]
  by_cases hc : r.object_id = oid
  · subst hc
    rw [history_singleton, if_pos rfl]
    rw [List.map_append, hA]
    have hm : List.map (fun d => d.version) [r] =
        [(history ar r.object_id).length] := by simp [hv]
    rw [hm, List.length_append]
    simp [List.range_succ]
  · rw [history_singleton, if_neg hc]
    simp [hA oid]

/-- Appending a batch of records with pairwise-distinct object ids, each
carrying the next version for its id, preserves the archive invariant. -/
theorem AWF_extend_list : ∀ (Δ : Archive) (ar : Archive), AWF ar →
    (∀ rec ∈ Δ, rec.version = (history ar rec.object_id).length) →
    (Δ.map (fun d => d.object_id)).Nodup → AWF (ar ++ Δ) := by
  intro Δ
  induction Δ with
  | nil =>
    intro ar hA _ _
    simpa using hA
  | cons r rest ih =>
    intro ar hA hv hnd
    simp only [List.map_cons, List.nodup_cons] at hnd
    have h1 : AWF (ar ++ [r]) := AWF_extend_one hA (hv r (List.mem_cons_self _ _))
    have heq : ar ++ r :: rest = (ar ++ [r]) ++ rest := by simp
    rw [heq]
    refine ih (ar ++ [r]) h1 ?_ hnd.2
    intro rec hrec
    have hne : rec.object_id ≠ r.object_id := by
      intro hc
      exact hnd.1 (List.mem_map.2 ⟨rec, hrec, hc⟩)
    rw [history_append, history_singleton, if_neg (fun hh => hne hh.symm)]
    rw [List.append_nil]
    exact hv rec (List.mem_cons_of_mem _ hrec)

/-- The staged identity-map updates carry pairwise-distinct object ids. -/
theorem oids_nodup_of_prov {prov : List (Addr × ObjectId)}
    {l : List (Addr × TrackInfo)}
    (hsnd : (prov.map Prod.snd).Nodup) (hfst : (l.map Prod.fst).Nodup)
    (hl : ∀ xt ∈ l, assocFind prov xt.1 = some xt.2.oid) :
    (l.map (fun xt => xt.2.oid)).Nodup := by
  induction l with
  | nil => simp
  | cons xt rest ih =>
    simp only [List.map_cons, List.nodup_cons] at hfst ⊢
    refine ⟨?_, ih hfst.2 (fun y hy => hl y (List.mem_cons_of_mem _ hy))⟩
    intro hmem
    obtain ⟨xt2, hxt2, he⟩ := List.mem_map.1 hmem
    have h1 := hl xt (List.mem_cons_self _ _)
    have h2 := hl xt2 (List.mem_cons_of_mem _ hxt2)
    rw [he] at h2
    have heq : xt2.1 = xt.1 := assocFind_inj_snd hsnd h2 h1
    exact hfst.1 (List.mem_map.2 ⟨xt2, hxt2, heq⟩)

/-- Map a `Forall₂` through functions agreeing on related pairs. -/
theorem forall₂_map_eq {α β γ : Type} {R : α → β → Prop} {f : α → γ}
    {g : β → γ} (h : ∀ a b, R a b → f a = g b) :
    ∀ {l1 : List α} {l2 : List β}, List.Forall₂ R l1 l2 →
      l1.map f = l2.map g := by
  intro l1 l2 hf
  induction hf with
  | nil => rfl
  | cons hab _ ih => simp only [List.map_cons, ih, h _ _ hab]

theorem assocFind_append_cases {κ β : Type} [DecidableEq κ]
    {l1 l2 : List (κ × β)} {k : κ} {v : β}
    (h : assocFind (l1 ++ l2) k = some v) :
    assocFind l1 k = some v ∨
    (assocFind l1 k = none ∧ assocFind l2 k = some v) := by
  cases hn : assocFind l1 k with
  | some w =>
    have hw : assocFind (l1 ++ l2) k = some w := assocFind_append_left hn
    rw [h] at hw
    cases hw
    exact Or.inl rfl
  | none =>
    right
    refine ⟨rfl, ?_⟩
    rw [← assocFind_append_right l2 hn]
    exact h

/-- After the commit, every provisional id of the walk is realised in the
session's new tracking map. -/
theorem prov_trOid_commit {tr newT : List (Addr × TrackInfo)}
    {prov : List (Addr × ObjectId)}
    (hTfind : ∀ xt ∈ newT, assocFind prov xt.1 = some xt.2.oid)
    (htie : ∀ x o, assocFind prov x = some o →
       (∃ i, assocFind tr x = some i ∧ i.oid = o) ∨
       (∃ xt ∈ newT, xt.1 = x ∧ xt.2.oid = o)) :
    ∀ x o, assocFind prov x = some o → trOid (newT ++ tr) x = some o := by
  intro x o hx
  cases hn : assocFind newT x with
  | some i2 =>
    have hmem := assocFind_mem hn
    have h1 := hTfind (x, i2) hmem
    rw [hx] at h1
    obtain rfl : o = i2.oid := by cases h1; rfl
    rw [trOid, assocFind_append_left hn]
    rfl
  | none =>
    rcases htie x o hx with ⟨i, hi, hoi⟩ | ⟨xt, hxt, hxe, hxo⟩
    · rw [trOid, assocFind_append_right tr hn, hi]
      simp [hoi]
    · have hmem : (x, xt.2) ∈ newT := by
        rw [← hxe]
        exact hxt
      exact absurd hmem (assocFind_eq_none hn xt.2)

/-- Committing a successful save preserves the archive invariants, keeps
the session invariants against the extended archive, leaves the session's
heap, registry and allocator unchanged, and appends to the archive. -/
theorem save_commit (ar : Archive) (h : Historian) (a : Addr)
    (ar2 : Archive) (h2 : Historian) (rf : Reference)
    (hA : AWF ar) (hRI : RHI ar) (hH : HINV ar h)
    (hsave : save ar h a = .ok (ar2, h2, rf)) :
    AWF ar2 ∧ RHI ar2 ∧ HINV ar2 h2 ∧
    h2.registry = h.registry ∧ h2.heap = h.heap ∧ h2.nextAddr = h.nextAddr ∧
    ∃ Δ, ar2 = ar ++ Δ := by
  obtain ⟨hW, hT, hL, hRT, hAD⟩ := hH
  cases hdep : depositOne (saveFuel h) ar h.registry h.heap h.tracked []
      ⟨[], [], [], freshOid ar h⟩ a with
  | error e =>
    simp only [save, hdep] at hsave
    exact Except.noConfusion hsave
  | ok w =>
    obtain ⟨st, oid, v⟩ := w
    simp only [save, hdep] at hsave
    cases hsave
    have hI0 : WalkInv ar h.tracked ⟨[], [], [], freshOid ar h⟩ := by
      refine ⟨?_, ?_, ?_, ?_, ?_, ?_⟩
      · have := le_max_left (maxOidArchive ar) (maxOidTracked h.tracked)
        simp only [freshOid]
        omega
      · have := le_max_right (maxOidArchive ar) (maxOidTracked h.tracked)
        simp only [freshOid]
        omega
      · intro p hp; simp at hp
      · simp
      · simp
      · intro p hp; simp at hp
    have hM := (saveWalk_master ar h.registry h.heap h.tracked hA hW hT
      (saveFuel h)).1 [] ⟨[], [], [], freshOid ar h⟩ a st oid v hI0 rfl hdep
    obtain ⟨hIs, hG, hproot⟩ := hM
    obtain ⟨hn, hmono, newT, newR, hTeq, hReq, hal, hen, hfr, hnd, hrc, htie⟩ := hG
    have hTeq' : st.stagedTrack = newT := by rw [hTeq, List.append_nil]
    have hReq' : st.staged = newR := by rw [hReq, List.append_nil]
    have hTfind : ∀ xt ∈ newT, assocFind st.prov xt.1 = some xt.2.oid :=
      fun xt hxt => (hfr xt hxt).2.1
    have htie' : ∀ x o, assocFind st.prov x = some o →
        (∃ i, assocFind h.tracked x = some i ∧ i.oid = o) ∨
        (∃ xt ∈ newT, xt.1 = x ∧ xt.2.oid = o) := by
      intro x o hx
      rcases htie x o hx with h0 | h1 | h1
      · exact Option.noConfusion h0
      · exact Or.inl h1
      · exact Or.inr h1
    have hsnd : (st.prov.map Prod.snd).Nodup := hIs.2.2.2.2.1
    have h6 := hIs.2.2.2.2.2
    have hoidsT : (newT.map (fun xt => xt.2.oid)).Nodup :=
      oids_nodup_of_prov hsnd hnd hTfind
    have hmapRT : newR.map (fun rec => rec.object_id) =
        newT.map (fun xt => xt.2.oid) :=
      forall₂_map_eq (fun rec xt hra => hra.1) hal
    have hoidsR : (newR.map (fun rec => rec.object_id)).Nodup := by
      rw [hmapRT]; exact hoidsT
    have hA2 : AWF (ar ++ st.staged.reverse) := by
      rw [hReq']
      refine AWF_extend_list newR.reverse ar hA ?_ ?_
      · intro rec hrec
        rw [List.mem_reverse] at hrec
        rw [(hrc rec hrec).1, nextVersion_AWF hA]
      · rw [List.map_reverse]
        exact List.nodup_reverse.2 hoidsR
    have hmemar2 : ∀ rec ∈ newR, rec ∈ ar ++ st.staged.reverse := by
      intro rec hrec
      refine List.mem_append.2 (Or.inr ?_)
      rw [hReq', List.mem_reverse]
      exact hrec
    -- injectivity of the combined tracking map
    have hT2 : TRInj (newT ++ h.tracked) := by
      intro a1 a2 i1 i2 hl1 hl2 hoid
      rcases assocFind_append_cases hl1 with hn1 | ⟨hn1, hl1'⟩
      · have hp1 : assocFind st.prov a1 = some i1.oid :=
          hTfind (a1, i1) (assocFind_mem hn1)
        rcases assocFind_append_cases hl2 with hn2 | ⟨hn2, hl2'⟩
        · have hp2 : assocFind st.prov a2 = some i2.oid :=
            hTfind (a2, i2) (assocFind_mem hn2)
          rw [← hoid] at hp2
          exact assocFind_inj_snd hsnd hp1 hp2
        · have h6p := h6 (a1, i1.oid) (assocFind_mem hp1)
          cases hptr : assocFind h.tracked a1 with
          | some j =>
            simp only [hptr] at h6p
            refine hT a1 a2 j i2 hptr hl2' ?_
            rw [← h6p, hoid]
          | none =>
            simp only [hptr] at h6p
            have hle : i2.oid ≤ maxOidTracked h.tracked :=
              mem_le_maxOidTracked (assocFind_mem hl2')
            rw [hoid] at h6p
            exact absurd hle (not_le.2 h6p.1)
      · rcases assocFind_append_cases hl2 with hn2 | ⟨hn2, hl2'⟩
        · have hp2 : assocFind st.prov a2 = some i2.oid :=
            hTfind (a2, i2) (assocFind_mem hn2)
          have h6p := h6 (a2, i2.oid) (assocFind_mem hp2)
          cases hptr : assocFind h.tracked a2 with
          | some j =>
            simp only [hptr] at h6p
            refine (hT a2 a1 j i1 hptr hl1' ?_).symm
            rw [← h6p, ← hoid]
          | none =>
            simp only [hptr] at h6p
            have hle : i1.oid ≤ maxOidTracked h.tracked :=
              mem_le_maxOidTracked (assocFind_mem hl1')
            rw [← hoid] at h6p
            exact absurd hle (not_le.2 h6p.1)
        · exact hT a1 a2 i1 i2 hl1' hl2' hoid
    have hmfst : (newT.map (fun x => (x.2.oid, x.1))).map Prod.fst =
        newT.map (fun xt => xt.2.oid) := by
      rw [List.map_map]
      rfl
    have hmnd : ((newT.map (fun x => (x.2.oid, x.1))).map Prod.fst).Nodup := by
      rw [hmfst]
      exact hoidsT
    refine ⟨hA2, ?_, ⟨?_, ?_, ?_, ?_, ?_, ?_, ?_⟩, rfl, rfl, rfl,
      st.staged.reverse, rfl⟩
    · -- RHI
      intro rec hrec
      rcases List.mem_append.1 hrec with hin | hin
      · exact hRI rec hin
      · rw [hReq', List.mem_reverse] at hin
        exact (hrc rec hin).2
    · -- HWF
      intro b i hb
      simp only [hTeq'] at hb
      rcases assocFind_append_cases hb with hnb | ⟨hnb, hb'⟩
      · obtain ⟨rec, hrecm, hsa⟩ := forall₂_mem_right hal (b, i) (assocFind_mem hnb)
        exact ⟨rec, hmemar2 rec hrecm, hsa.1, hsa.2.1⟩
      · obtain ⟨r0, hr0, ho0, hv0⟩ := hW b i hb'
        exact ⟨r0, List.mem_append.2 (Or.inl hr0), ho0, hv0⟩
    · -- TINJ
      intro a1 a2 i1 i2 hl1 hl2 hoid
      simp only [hTeq'] at hl1 hl2
      exact hT2 a1 a2 i1 i2 hl1 hl2 hoid
    · -- LIVETR
      intro b i hb
      simp only [hTeq'] at hb ⊢
      rcases assocFind_append_cases hb with hnb | ⟨hnb, hb'⟩
      · have hmem : (i.oid, b) ∈ newT.map (fun x => (x.2.oid, x.1)) :=
          List.mem_map.2 ⟨(b, i), assocFind_mem hnb, rfl⟩
        exact assocFind_append_left (assocFind_of_mem_nodup hmnd hmem)
      · have hold : assocFind h.liveOf i.oid = some b := hL b i hb'
        cases hm : assocFind (newT.map (fun x => (x.2.oid, x.1))) i.oid with
        | some b0 =>
          obtain ⟨xt, hxt, hxe⟩ := List.mem_map.1 (assocFind_mem hm)
          have hxoid : xt.2.oid = i.oid := congrArg Prod.fst hxe
          have hp := hTfind xt hxt
          have h6p := h6 (xt.1, xt.2.oid) (assocFind_mem hp)
          cases hptr : assocFind h.tracked xt.1 with
          | some j =>
            simp only [hptr] at h6p
            have heq : xt.1 = b := by
              refine hT xt.1 b j i hptr hb' ?_
              rw [← h6p, hxoid]
            have hmm : (b, xt.2) ∈ newT := by
              rw [← heq]
              exact hxt
            exact absurd hmm (assocFind_eq_none hnb xt.2)
          | none =>
            simp only [hptr] at h6p
            have hle : i.oid ≤ maxOidTracked h.tracked :=
              mem_le_maxOidTracked (assocFind_mem hb')
            rw [hxoid] at h6p
            exact absurd hle (not_le.2 h6p.1)
        | none =>
          rw [assocFind_append_right h.liveOf hm]
          exact hold
    · -- LIVERT
      intro oid2 b hb
      simp only [hTeq'] at hb ⊢
      rcases assocFind_append_cases hb with hm | ⟨hm, hb'⟩
      · obtain ⟨xt, hxt, hxe⟩ := List.mem_map.1 (assocFind_mem hm)
        have hxoid : xt.2.oid = oid2 := congrArg Prod.fst hxe
        have hxb : xt.1 = b := congrArg Prod.snd hxe
        have hmm : (b, xt.2) ∈ newT := by
          rw [← hxb]
          exact hxt
        exact ⟨xt.2, assocFind_append_left (assocFind_of_mem_nodup hnd hmm), hxoid⟩
      · obtain ⟨i, hbt, hioid⟩ := hRT oid2 b hb'
        cases hnb : assocFind newT b with
        | none =>
          refine ⟨i, ?_, hioid⟩
          rw [assocFind_append_right h.tracked hnb]
          exact hbt
        | some i2 =>
          have hp := hTfind (b, i2) (assocFind_mem hnb)
          have h6p := h6 (b, i2.oid) (assocFind_mem hp)
          cases hptr : assocFind h.tracked b with
          | some j =>
            simp only [hptr] at h6p
            have hji : j = i := by
              rw [hbt] at hptr
              cases hptr
              rfl
            refine ⟨i2, assocFind_append_left hnb, ?_⟩
            rw [h6p, hji, hioid]
          | none =>
            rw [hbt] at hptr
            exact Option.noConfusion hptr
    · -- ADDROK heap
      intro p hp
      exact hAD.1 p hp
    · -- ADDROK tracked
      intro p hp
      simp only [hTeq'] at hp
      rcases List.mem_append.1 hp with hin | hin
      · have hs := (hfr p hin).2.2
        cases hh : assocFind h.heap p.1 with
        | none => rw [hh] at hs; exact absurd hs (by simp)
        | some o => exact hAD.1 (p.1, o) (assocFind_mem hh)
      · exact hAD.2.1 p hin
    · -- ADDROK liveOf
      intro p hp
      simp only [hTeq'] at hp
      rcases List.mem_append.1 hp with hin | hin
      · obtain ⟨xt, hxt, hxe⟩ := List.mem_map.1 hin
        have hs := (hfr xt hxt).2.2
        have hpe : p.2 = xt.1 := by rw [← hxe]
        rw [hpe]
        cases hh : assocFind h.heap xt.1 with
        | none => rw [hh] at hs; exact absurd hs (by simp)
        | some o => exact hAD.1 (xt.1, o) (assocFind_mem hh)
      · exact hAD.2.2 p hin

/-! ## The record staged for a freshly saved root -/

theorem forall₂_conj {α β : Type} {R S : α → β → Prop} :
    ∀ {l1 : List α} {l2 : List β}, List.Forall₂ R l1 l2 →
      List.Forall₂ S l1 l2 →
      List.Forall₂ (fun a b => R a b ∧ S a b) l1 l2 := by
  intro l1 l2 hr
  induction hr with
  | nil => intro hs; exact List.Forall₂.nil
  | cons hab hrest ih =>
    intro hs
    cases hs with
    | cons hab2 hrest2 => exact List.Forall₂.cons ⟨hab, hab2⟩ (ih hrest2)

theorem history_of_nodup_mem {l : List DataRecord} {oid : ObjectId}
    {rec : DataRecord}
    (hnd : (l.map (fun d => d.object_id)).Nodup) (hmem : rec ∈ l)
    (hoid : rec.object_id = oid) : history l oid = [rec] := by
  induction l with
  | nil => simp at hmem
  | cons x rest ih =>
    simp only [List.map_cons, List.nodup_cons] at hnd
    rcases List.mem_cons.1 hmem with h1 | h1
    · subst h1
      rw [history]
      rw [List.filter_cons_of_pos (by simp [hoid])]
      have hrest : rest.filter (fun r => decide (r.object_id = oid)) = [] := by
        rw [List.filter_eq_nil_iff]
        intro y hy hc
        have hyo : y.object_id = oid := of_decide_eq_true hc
        exact hnd.1 (List.mem_map.2 ⟨y, hy, by rw [hyo, hoid]⟩)
      rw [show history rest oid = rest.filter (fun r => decide (r.object_id = oid)) from rfl] at ih
      exact congrArg (rec :: ·) hrest
    · have hxne : x.object_id ≠ oid := by
        intro hc
        refine hnd.1 (List.mem_map.2 ⟨rec, h1, ?_⟩)
        rw [hoid, hc]
      rw [history, List.filter_cons_of_neg (by simp [hxne])]
      exact ih hnd.2 h1

theorem find?_append_some {α : Type} {p : α → Bool} {l1 l2 : List α}
    {r : α} (h : l1.find? p = some r) : (l1 ++ l2).find? p = some r := by
  induction l1 with
  | nil => exact Option.noConfusion h
  | cons x rest ih =>
    cases hp : p x with
    | true =>
      rw [List.find?_cons_of_pos _ hp] at h
      rw [List.cons_append, List.find?_cons_of_pos _ hp]
      exact h
    | false =>
      have hp2 : ¬ p x = true := by rw [hp]; exact Bool.false_ne_true
      rw [List.find?_cons_of_neg _ hp2] at h
      rw [List.cons_append, List.find?_cons_of_neg _ hp2]
      exact ih h

/-- A pinned snapshot is stable under archive growth: appending records
never changes the result of `get_record` for an existing snapshot. -/
theorem getRecord_append_left {ar : Archive} (Δ : Archive) {oid : ObjectId}
    {v : Version} {r : DataRecord} (h : getRecord ar oid v = some r) :
    getRecord (ar ++ Δ) oid v = some r := by
  rw [getRecord, history_append, List.find?_append]
  rw [getRecord] at h
  rw [h]
  rfl

theorem mem_of_getLast_opt {α : Type} :
    ∀ {l : List α} {a : α}, l.getLast? = some a → a ∈ l := by
  intro l
  induction l with
  | nil => intro a h; exact Option.noConfusion h
  | cons x rest ih =>
    intro a h
    cases rest with
    | nil =>
      cases h
      exact List.mem_singleton_self x
    | cons y t =>
      rw [List.getLast?_cons_cons] at h
      exact List.mem_cons_of_mem _ (ih h)

theorem getLatest_mem {ar : Archive} {oid : ObjectId} {r : DataRecord}
    (h : getLatest ar oid = some r) : r ∈ ar ∧ r.object_id = oid := by
  rw [getLatest] at h
  have hm : r ∈ history ar oid := mem_of_getLast_opt h
  exact mem_history.1 hm

/-- Saving a fresh, untracked object stages exactly one record for the
returned object id: a version-0 record carrying the helper's type id and
schema version whose state matches the live object's fields through the
committed identity map. -/
theorem save_fresh_root (ar : Archive) (h : Historian) (a : Addr)
    (ar2 : Archive) (h2 : Historian) (rf : Reference)
    (hA : AWF ar) (hH : HINV ar h)
    (htrk : assocFind h.tracked a = none)
    (hsave : save ar h a = .ok (ar2, h2, rf)) :
    ∃ obj helper rec,
      assocFind h.heap a = some obj ∧
      resolveType h.registry obj.typeId = some helper ∧
      rec.object_id = rf.oid ∧
      rec.version = 0 ∧
      rec.type_id = helper.type_id ∧
      rec.state_schema_version = helper.schema_version ∧
      history ar2 rf.oid = [rec] ∧
      fieldsMatch h.heap h2.tracked obj.fields rec.encoded_state = true := by
  obtain ⟨hW, hT, hL, hRT, hAD⟩ := hH
  cases hdep : depositOne (saveFuel h) ar h.registry h.heap h.tracked []
      ⟨[], [], [], freshOid ar h⟩ a with
  | error e =>
    simp only [save, hdep] at hsave
    exact Except.noConfusion hsave
  | ok w =>
    obtain ⟨st, oid, v⟩ := w
    simp only [save, hdep] at hsave
    cases hsave
    have hI0 : WalkInv ar h.tracked ⟨[], [], [], freshOid ar h⟩ := by
      refine ⟨?_, ?_, ?_, ?_, ?_, ?_⟩
      · have := le_max_left (maxOidArchive ar) (maxOidTracked h.tracked)
        simp only [freshOid]
        omega
      · have := le_max_right (maxOidArchive ar) (maxOidTracked h.tracked)
        simp only [freshOid]
        omega
      · intro p hp; simp at hp
      · simp
      · simp
      · intro p hp; simp at hp
    have hM := (saveWalk_master ar h.registry h.heap h.tracked hA hW hT
      (saveFuel h)).1 [] ⟨[], [], [], freshOid ar h⟩ a st oid v hI0 rfl hdep
    obtain ⟨hIs, hG, hproot⟩ := hM
    obtain ⟨hn, hmono, newT, newR, hTeq, hReq, hal, hen, hfr, hnd, hrc, htie⟩ := hG
    have hTeq' : st.stagedTrack = newT := by rw [hTeq, List.append_nil]
    have hReq' : st.staged = newR := by rw [hReq, List.append_nil]
    have hTfind : ∀ xt ∈ newT, assocFind st.prov xt.1 = some xt.2.oid :=
      fun xt hxt => (hfr xt hxt).2.1
    have htie' : ∀ x o, assocFind st.prov x = some o →
        (∃ i, assocFind h.tracked x = some i ∧ i.oid = o) ∨
        (∃ xt ∈ newT, xt.1 = x ∧ xt.2.oid = o) := by
      intro x o hx
      rcases htie x o hx with h0 | h1 | h1
      · exact Option.noConfusion h0
      · exact Or.inl h1
      · exact Or.inr h1
    have hsnd : (st.prov.map Prod.snd).Nodup := hIs.2.2.2.2.1
    have h6 := hIs.2.2.2.2.2
    have hoidsT : (newT.map (fun xt => xt.2.oid)).Nodup :=
      oids_nodup_of_prov hsnd hnd hTfind
    have hmapRT : newR.map (fun rec => rec.object_id) =
        newT.map (fun xt => xt.2.oid) :=
      forall₂_map_eq (fun rec xt hra => hra.1) hal
    have hoidsR : (newR.map (fun rec => rec.object_id)).Nodup := by
      rw [hmapRT]; exact hoidsT
    -- the root is staged
    rcases htie' a oid hproot with ⟨i, hi, _⟩ | ⟨xt, hxt, hxe, hxo⟩
    · rw [htrk] at hi
      exact Option.noConfusion hi
    · obtain ⟨rec, hrecm, hsa, hse⟩ :=
        forall₂_mem_right (forall₂_conj hal hen) xt hxt
      obtain ⟨obj, helper, hobj, hres, htid, hsch, hpm⟩ := hse
      have hfresh : maxOidArchive ar < oid := by
        have h6p := h6 (a, oid) (assocFind_mem hproot)
        have h7 : assocFind h.tracked (a, oid).1 = none := htrk
        simp only [h7] at h6p
        exact h6p.2
      have hrecoid : rec.object_id = oid := by
        rw [hsa.1, hxo]
      have hrecver : rec.version = 0 := by
        rw [(hrc rec hrecm).1, nextVersion_AWF hA, hrecoid,
          history_eq_nil_of_gt hfresh]
        rfl
      have hhistar : history ar oid = [] := history_eq_nil_of_gt hfresh
      have hhist2 : history (ar ++ st.staged.reverse) oid = [rec] := by
        rw [history_append, hhistar, List.nil_append]
        refine history_of_nodup_mem ?_ ?_ hrecoid
        · rw [hReq', List.map_reverse]
          exact List.nodup_reverse.2 hoidsR
        · rw [hReq', List.mem_reverse]
          exact hrecm
      have hprovT := prov_trOid_commit hTfind htie'
      refine ⟨obj, helper, rec, ?_, hres, hrecoid, hrecver, htid, hsch,
        hhist2, ?_⟩
      · rw [← hxe]
        exact hobj
      · have hfm : fieldsMatch h.heap (newT ++ h.tracked)
            obj.fields rec.encoded_state = true :=
          provMatch_to_fieldsMatch hprovT hpm
        rw [show ({ h with
            tracked := st.stagedTrack ++ h.tracked,
            liveOf := st.stagedTrack.map (fun x => (x.2.oid, x.1)) ++
              h.liveOf } : Historian).tracked =
          st.stagedTrack ++ h.tracked from rfl]
        rw [hTeq']
        exact hfm

/-! ## Session-extension algebra and the loader's registration step -/

theorem SessExt_refl (h : Historian) : SessExt h h :=
  ⟨rfl, le_refl _, fun _ _ ho => ho, fun _ _ hi => hi, fun _ _ ha => ha,
   fun _ hp => Or.inl hp, fun _ hp => Or.inl hp, fun _ hp => Or.inl hp⟩

theorem SessExt_trans {h1 h2 h3 : Historian} (e1 : SessExt h1 h2)
    (e2 : SessExt h2 h3) : SessExt h1 h3 := by
  obtain ⟨r1, n1, hh1, ht1, hl1, mh1, mt1, ml1⟩ := e1
  obtain ⟨r2, n2, hh2, ht2, hl2, mh2, mt2, ml2⟩ := e2
  refine ⟨r2.trans r1, n1.trans n2, fun a o ho => hh2 _ _ (hh1 _ _ ho),
    fun a i hi => ht2 _ _ (ht1 _ _ hi), fun oid a ha => hl2 _ _ (hl1 _ _ ha),
    ?_, ?_, ?_⟩
  · intro p hp
    rcases mh2 p hp with hin | hin
    · exact mh1 p hin
    · exact Or.inr (n1.trans hin)
  · intro p hp
    rcases mt2 p hp with hin | hin
    · exact mt1 p hin
    · exact Or.inr (n1.trans hin)
  · intro p hp
    rcases ml2 p hp with hin | hin
    · exact ml1 p hin
    · exact Or.inr (n1.trans hin)

/-- Registering a fresh instance for a fetched record (identity map and
tracking entries at the session's next address) preserves the session
invariants and is a session extension. -/
theorem load_push_inv {ar : Archive} {h : Historian} {oid : ObjectId}
    {r : DataRecord} (hH : HINV ar h)
    (hmiss : assocFind h.liveOf oid = none)
    (hlat : getLatest ar oid = some r) :
    HINV ar { h with nextAddr := h.nextAddr + 1,
                     liveOf := (oid, h.nextAddr) :: h.liveOf,
                     tracked := (h.nextAddr, ⟨oid, r.version, r.content_hash⟩) ::
                       h.tracked } ∧
    SessExt h { h with nextAddr := h.nextAddr + 1,
                       liveOf := (oid, h.nextAddr) :: h.liveOf,
                       tracked := (h.nextAddr, ⟨oid, r.version, r.content_hash⟩) ::
                         h.tracked } := by
  obtain ⟨hW, hT, hL, hRT, hAD⟩ := hH
  obtain ⟨hrmem, hroid⟩ := getLatest_mem hlat
  have htrlt : ∀ a i, assocFind h.tracked a = some i → a < h.nextAddr :=
    fun a i hi => hAD.2.1 (a, i) (assocFind_mem hi)
  have hlvlt : ∀ oid2 a, assocFind h.liveOf oid2 = some a → a < h.nextAddr :=
    fun oid2 a ha => hAD.2.2 (oid2, a) (assocFind_mem ha)
  constructor
  · refine ⟨?_, ?_, ?_, ?_, ?_, ?_, ?_⟩
    · -- HWF
      intro b i hb
      by_cases hbn : b = h.nextAddr
      · subst hbn
        rw [assocFind_cons_self] at hb
        cases hb
        exact ⟨r, hrmem, hroid, rfl⟩
      · rw [assocFind_cons_ne hbn] at hb
        exact hW b i hb
    · -- TINJ
      intro a1 a2 i1 i2 h1 h2 hoid
      by_cases e1 : a1 = h.nextAddr <;> by_cases e2 : a2 = h.nextAddr
      · rw [e1, e2]
      · subst e1
        rw [assocFind_cons_self] at h1
        cases h1
        rw [assocFind_cons_ne e2] at h2
        have := hL a2 i2 h2
        rw [← hoid] at this
        rw [hmiss] at this
        exact Option.noConfusion this
      · subst e2
        rw [assocFind_cons_self] at h2
        cases h2
        rw [assocFind_cons_ne e1] at h1
        have := hL a1 i1 h1
        rw [hoid] at this
        rw [hmiss] at this
        exact Option.noConfusion this
      · rw [assocFind_cons_ne e1] at h1
        rw [assocFind_cons_ne e2] at h2
        exact hT a1 a2 i1 i2 h1 h2 hoid
    · -- LIVETR
      intro b i hb
      by_cases hbn : b = h.nextAddr
      · subst hbn
        rw [assocFind_cons_self] at hb
        cases hb
        rw [assocFind_cons_self]
      · rw [assocFind_cons_ne hbn] at hb
        have hold := hL b i hb
        have hne : i.oid ≠ oid := by
          intro hc
          rw [hc, hmiss] at hold
          exact Option.noConfusion hold
        rw [assocFind_cons_ne hne]
        exact hold
    · -- LIVERT
      intro oid2 a ha
      by_cases ho2 : oid2 = oid
      · subst ho2
        rw [assocFind_cons_self] at ha
        cases ha
        exact ⟨⟨oid2, r.version, r.content_hash⟩, assocFind_cons_self _ _ _, rfl⟩
      · rw [assocFind_cons_ne ho2] at ha
        obtain ⟨i, hbt, hioid⟩ := hRT oid2 a ha
        have hane : a ≠ h.nextAddr := Nat.ne_of_lt (hlvlt oid2 a ha)
        exact ⟨i, by rw [assocFind_cons_ne hane]; exact hbt, hioid⟩
    · -- ADDROK heap
      intro p hp
      exact Nat.lt_succ_of_lt (hAD.1 p hp)
    · -- ADDROK tracked
      intro p hp
      rcases List.mem_cons.1 hp with h1 | h1
      · subst h1; exact Nat.lt_succ_self _
      · exact Nat.lt_succ_of_lt (hAD.2.1 p h1)
    · -- ADDROK liveOf
      intro p hp
      rcases List.mem_cons.1 hp with h1 | h1
      · subst h1; exact Nat.lt_succ_self _
      · exact Nat.lt_succ_of_lt (hAD.2.2 p h1)
  · refine ⟨rfl, Nat.le_succ _, fun a o ho => ho, ?_, ?_, ?_, ?_, ?_⟩
    · intro a i hi
      have hne : a ≠ h.nextAddr := Nat.ne_of_lt (htrlt a i hi)
      rw [assocFind_cons_ne hne]
      exact hi
    · intro oid2 a ha
      have hne : oid2 ≠ oid := by
        intro hc
        rw [hc, hmiss] at ha
        exact Option.noConfusion ha
      rw [assocFind_cons_ne hne]
      exact ha
    · intro p hp
      exact Or.inl hp
    · intro p hp
      rcases List.mem_cons.1 hp with h1 | h1
      · subst h1; exact Or.inr (le_refl _)
      · exact Or.inl h1
    · intro p hp
      rcases List.mem_cons.1 hp with h1 | h1
      · subst h1; exact Or.inr (le_refl _)
      · exact Or.inl h1

/-! ## The load-walk master lemma -/

/-- A successful load step preserves the session invariants, extends the
session monotonically, and reconstructs state: a loaded instance is
registered in the identity map and tracking under its object id, decoded
fields match their encoded state through the final session, and a decoded
node matches its encoded node. -/
theorem loadWalk_master :
    ∀ fuel : Nat,
      (∀ ar h oid ar2 h2 b, HINV ar h →
         loadOne fuel ar h oid = .ok (ar2, h2, b) →
         HINV ar h2 ∧ SessExt h h2 ∧
         ∃ i, assocFind h2.tracked b = some i ∧ i.oid = oid ∧
           assocFind h2.liveOf oid = some b) ∧
      (∀ s ar h ar2 h2 fs, HINV ar h →
         decodeFields fuel ar h s = .ok (ar2, h2, fs) →
         HINV ar h2 ∧ SessExt h h2 ∧
         fieldsMatch h2.heap h2.tracked fs s = true) ∧
      (∀ ar h nd ar2 h2 v, HINV ar h →
         decodeNode fuel ar h nd = .ok (ar2, h2, v) →
         HINV ar h2 ∧ SessExt h h2 ∧
         stateMatch.goNode (fun x oid => trOid h2.tracked x == some oid)
           h2.heap v nd = true) := by
  intro fuel
  induction fuel with
  | zero =>
    refine ⟨?_, ?_, ?_⟩ <;> intro ar h x ar2 h2 y hH heq <;>
      exact Except.noConfusion heq
  | succ n ih =>
    obtain ⟨ihL, ihF, ihN⟩ := ih
    refine ⟨?_, ?_, ?_⟩
    · -- loadOne
      intro ar h oid ar2 h2 b hH heq
      cases hm : assocFind h.liveOf oid with
      | some a =>
        simp only [loadOne, hm] at heq
        cases heq
        obtain ⟨i, hbt, hioid⟩ := hH.2.2.2.1 oid b hm
        exact ⟨hH, SessExt_refl h, i, hbt, hioid, hm⟩
      | none =>
        cases hl : getLatest ar oid with
        | none =>
          simp only [loadOne, hm, hl] at heq
          exact Except.noConfusion heq
        | some r =>
          cases hres : resolveType h.registry r.type_id with
          | none =>
            simp only [loadOne, hm, hl, hres] at heq
            exact Except.noConfusion heq
          | some helper =>
            cases hmig : migrateState helper r with
            | error e =>
              simp only [loadOne, hm, hl, hres, hmig] at heq
              exact Except.noConfusion heq
            | ok s =>
              simp only [loadOne, hm, hl, hres, hmig] at heq
              obtain ⟨hIpre, hEpre⟩ := load_push_inv hH hm hl
              cases hdec : decodeFields n ar
                  { h with nextAddr := h.nextAddr + 1,
                           liveOf := (oid, h.nextAddr) :: h.liveOf,
                           tracked := (h.nextAddr, ⟨oid, r.version, r.content_hash⟩) ::
                             h.tracked } s with
              | error e =>
                simp only [hdec] at heq
                exact Except.noConfusion heq
              | ok w =>
                obtain ⟨ar3, h3, fs⟩ := w
                simp only [hdec] at heq
                obtain rfl : ar3 = ar :=
                  (loadWalk_ar_eq_all n).2.1 _ _ _ _ _ _ hdec
                cases heq
                obtain ⟨hI3, hE3, hfm⟩ := ihF _ _ _ _ _ _ hIpre hdec
                have hEh3 : SessExt h h3 := SessExt_trans hEpre hE3
                have hn31 : h.nextAddr + 1 ≤ h3.nextAddr := hE3.2.1
                have hfreshkey : ∀ p ∈ h3.heap, p.1 ≠ h.nextAddr := by
                  intro p hp
                  rcases hE3.2.2.2.2.2.1 p hp with hin | hin
                  · exact Nat.ne_of_lt (hH.2.2.2.2.1 p hin)
                  · have hin' : h.nextAddr + 1 ≤ p.1 := hin
                    exact Ne.symm (Nat.ne_of_lt (Nat.lt_of_succ_le hin'))
                refine ⟨⟨hI3.1, hI3.2.1, hI3.2.2.1, hI3.2.2.2.1, ?_, hI3.2.2.2.2.2.1,
                    hI3.2.2.2.2.2.2⟩, ?_, ?_⟩
                · -- ADDROK heap with the new instance pushed
                  intro p hp
                  rcases List.mem_cons.1 hp with h1 | h1
                  · subst h1
                    show h.nextAddr < h3.nextAddr
                    exact Nat.lt_of_succ_le hn31
                  · exact hI3.2.2.2.2.1 p h1
                · -- SessExt h (final session)
                  refine ⟨hEh3.1, hEh3.2.1, ?_, hEh3.2.2.2.1, hEh3.2.2.2.2.1,
                    ?_, hEh3.2.2.2.2.2.2.1, hEh3.2.2.2.2.2.2.2⟩
                  · intro a o ho
                    have h3o := hEh3.2.2.1 a o ho
                    have hane : a ≠ h.nextAddr :=
                      Nat.ne_of_lt (hH.2.2.2.2.1 (a, o) (assocFind_mem ho))
                    rw [assocFind_cons_ne hane]
                    exact h3o
                  · intro p hp
                    rcases List.mem_cons.1 hp with h1 | h1
                    · subst h1
                      exact Or.inr (le_refl _)
                    · exact hEh3.2.2.2.2.2.1 p h1
                · -- the loaded instance is registered
                  refine ⟨⟨oid, r.version, r.content_hash⟩, ?_, rfl, ?_⟩
                  · exact hE3.2.2.2.1 _ _ (assocFind_cons_self _ _ _)
                  · exact hE3.2.2.2.2.1 _ _ (assocFind_cons_self _ _ _)
    · -- decodeFields
      intro s
      induction s with
      | nil =>
        intro ar h ar2 h2 fs hH heq
        rw [decodeFields_nil] at heq
        cases heq
        exact ⟨hH, SessExt_refl h, rfl⟩
      | cons kv rest ihrest =>
        intro ar h ar2 h2 fs hH heq
        obtain ⟨k0, n0⟩ := kv
        rw [decodeFields_cons] at heq
        cases hn : decodeNode n ar h (k0, n0).2 with
        | error e =>
          simp only [hn] at heq
          exact Except.noConfusion heq
        | ok w =>
          obtain ⟨ar3, h3, v⟩ := w
          simp only [hn] at heq
          obtain rfl : ar3 = ar :=
            (loadWalk_ar_eq_all n).2.2 _ _ _ _ _ _ hn
          obtain ⟨hI3, hE3, hgn⟩ := ihN _ _ _ _ _ _ hH hn
          cases hrest : decodeFields (n + 1) ar3 h3 rest with
          | error e =>
            simp only [hrest] at heq
            exact Except.noConfusion heq
          | ok w2 =>
            obtain ⟨ar4, h4, vs⟩ := w2
            simp only [hrest] at heq
            cases heq
            obtain ⟨hI4, hE4, hfm⟩ := ihrest _ _ _ _ _ hI3 hrest
            refine ⟨hI4, SessExt_trans hE3 hE4, ?_⟩
            rw [show fieldsMatch h2.heap h2.tracked ((k0, v) :: vs)
                ((k0, n0) :: rest) =
              (k0 == k0 && stateMatch.goNode
                (fun x oid => trOid h2.tracked x == some oid) h2.heap v n0 &&
               fieldsMatch h2.heap h2.tracked vs rest) from rfl]
            simp only [Bool.and_eq_true, beq_self_eq_true]
            refine ⟨⟨trivial, ?_⟩, hfm⟩
            exact goNodeTr_mono hE4.2.2.2.1 hE4.2.2.1 hgn
    · -- decodeNode
      intro ar h nd ar2 h2 v hH heq
      cases nd with
      | prim s =>
        simp only [decodeNode] at heq
        cases heq
        refine ⟨hH, SessExt_refl h, ?_⟩
        rw [goNode_prim, beq_self_eq_true]
      | ref oid =>
        cases hl : loadOne n ar h oid with
        | error e =>
          simp only [decodeNode, hl] at heq
          exact Except.noConfusion heq
        | ok w =>
          obtain ⟨ar3, h3, b⟩ := w
          simp only [decodeNode, hl] at heq
          cases heq
          obtain ⟨hI3, hE3, i, hbt, hioid, hlive⟩ := ihL _ _ _ _ _ _ hH hl
          refine ⟨hI3, hE3, ?_⟩
          rw [goNode_ref, beq_iff_eq, trOid, hbt]
          simp [hioid]
      | branch tid fs =>
        cases hdec : decodeFields n ar h fs with
        | error e =>
          simp only [decodeNode, hdec] at heq
          exact Except.noConfusion heq
        | ok w =>
          obtain ⟨ar3, h3, nf⟩ := w
          simp only [decodeNode, hdec] at heq
          obtain rfl : ar3 = ar :=
            (loadWalk_ar_eq_all n).2.1 _ _ _ _ _ _ hdec
          cases heq
          obtain ⟨hI3, hE3, hfm⟩ := ihF _ _ _ _ _ _ hH hdec
          have hkeylt : ∀ a o, assocFind h3.heap a = some o → a < h3.nextAddr :=
            fun a o ho => hI3.2.2.2.2.1 (a, o) (assocFind_mem ho)
          refine ⟨⟨hI3.1, hI3.2.1, hI3.2.2.1, hI3.2.2.2.1, ?_,
              fun p hp => Nat.lt_succ_of_lt (hI3.2.2.2.2.2.1 p hp),
              fun p hp => Nat.lt_succ_of_lt (hI3.2.2.2.2.2.2 p hp)⟩, ?_, ?_⟩
          · intro p hp
            rcases List.mem_cons.1 hp with h1 | h1
            · subst h1
              exact Nat.lt_succ_self _
            · exact Nat.lt_succ_of_lt (hI3.2.2.2.2.1 p h1)
          · refine SessExt_trans hE3
              ⟨rfl, Nat.le_succ _, ?_, fun a i hi => hi, fun o a ha => ha,
               ?_, fun p hp => Or.inl hp, fun p hp => Or.inl hp⟩
            · intro a o ho
              rw [assocFind_cons_ne (Nat.ne_of_lt (hkeylt a o ho))]
              exact ho
            · intro p hp
              rcases List.mem_cons.1 hp with h1 | h1
              · subst h1
                exact Or.inr (le_refl _)
              · exact Or.inl h1
          · rw [goNode_branch, assocFind_cons_self]
            simp only [Bool.and_eq_true, beq_self_eq_true]
            refine ⟨trivial, ?_⟩
            refine fieldsMatch_mono (fun a i hi => hi) ?_ hfm
            intro a o ho
            rw [assocFind_cons_ne (Nat.ne_of_lt (hkeylt a o ho))]
            exact ho

/-! ## Session invariants across application steps and pinned loads -/

theorem HINV_empty (ar : Archive) (reg : List TypeHelper) :
    HINV ar (emptyHistorian reg) := by
  refine ⟨?_, ?_, ?_, ?_, ?_, ?_, ?_⟩
  · intro a i hi; exact Option.noConfusion hi
  · intro a1 a2 i1 i2 h1 h2 _; exact Option.noConfusion h1
  · intro a i hi; exact Option.noConfusion hi
  · intro oid a ha; exact Option.noConfusion ha
  · intro p hp; simp [emptyHistorian] at hp
  · intro p hp; simp [emptyHistorian] at hp
  · intro p hp; simp [emptyHistorian] at hp

theorem HINV_addObj {ar : Archive} {h : Historian} {o : LiveObj}
    (hH : HINV ar h) : HINV ar (addObj h o) := by
  obtain ⟨hW, hT, hL, hRT, hAD⟩ := hH
  refine ⟨hW, hT, hL, hRT, ?_, ?_, ?_⟩
  · intro p hp
    rcases List.mem_cons.1 hp with h1 | h1
    · subst h1; exact Nat.lt_succ_self _
    · exact Nat.lt_succ_of_lt (hAD.1 p h1)
  · intro p hp
    exact Nat.lt_succ_of_lt (hAD.2.1 p hp)
  · intro p hp
    exact Nat.lt_succ_of_lt (hAD.2.2 p hp)

theorem HINV_mutateObj {ar : Archive} {h : Historian} {a : Addr} {k : String}
    {v : FieldVal} (hH : HINV ar h) : HINV ar (mutateObj h a k v) := by
  obtain ⟨hW, hT, hL, hRT, hAD⟩ := hH
  refine ⟨hW, hT, hL, hRT, ?_, hAD.2.1, hAD.2.2⟩
  intro p hp
  simp only [mutateObj] at hp
  cases hfind : assocFind h.heap a with
  | none =>
    rw [hfind] at hp
    exact hAD.1 p hp
  | some o =>
    rw [hfind] at hp
    rcases List.mem_cons.1 hp with h1 | h1
    · subst h1
      exact hAD.1 (a, o) (assocFind_mem hfind)
    · exact hAD.1 p h1

theorem HINV_regHelper {ar : Archive} {h : Historian} {helper : TypeHelper}
    (hH : HINV ar h) : HINV ar (regHelper h helper) := by
  obtain ⟨hW, hT, hL, hRT, hAD⟩ := hH
  exact ⟨hW, hT, hL, hRT, hAD⟩

theorem HINV_archive_append {ar : Archive} (Δ : Archive) {h : Historian}
    (hH : HINV ar h) : HINV (ar ++ Δ) h := by
  obtain ⟨hW, hT, hL, hRT, hAD⟩ := hH
  refine ⟨?_, hT, hL, hRT, hAD⟩
  intro a i hi
  obtain ⟨r, hr, ho, hv⟩ := hW a i hi
  exact ⟨r, List.mem_append.2 (Or.inl hr), ho, hv⟩

/-- A pinned load leaves the archive unchanged, preserves the session
invariants, extends the session, and decodes the pinned record's (migrated)
state into the returned detached instance. -/
theorem loadPinned_master {ar : Archive} {h : Historian} {oid : ObjectId}
    {v : Version} {ar2 : Archive} {h2 : Historian} {b : Addr}
    (hH : HINV ar h) (hload : loadPinned ar h oid v = .ok (ar2, h2, b)) :
    ar2 = ar ∧ HINV ar h2 ∧ SessExt h h2 ∧
    ∃ r helper s fs, getRecord ar oid v = some r ∧
      resolveType h.registry r.type_id = some helper ∧
      migrateState helper r = .ok s ∧
      assocFind h2.heap b = some ⟨r.type_id, fs⟩ ∧
      fieldsMatch h2.heap h2.tracked fs s = true := by
  cases hrec : getRecord ar oid v with
  | none =>
    simp only [loadPinned, hrec] at hload
    exact Except.noConfusion hload
  | some r =>
    cases hres : resolveType h.registry r.type_id with
    | none =>
      simp only [loadPinned, hrec, hres] at hload
      exact Except.noConfusion hload
    | some helper =>
      cases hmig : migrateState helper r with
      | error e =>
        simp only [loadPinned, hrec, hres, hmig] at hload
        exact Except.noConfusion hload
      | ok s =>
        simp only [loadPinned, hrec, hres, hmig] at hload
        cases hdec : decodeFields (loadFuel ar) ar h s with
        | error e =>
          simp only [hdec] at hload
          exact Except.noConfusion hload
        | ok w =>
          obtain ⟨ar3, h3, fs⟩ := w
          simp only [hdec] at hload
          obtain rfl : ar3 = ar :=
            (loadWalk_ar_eq_all (loadFuel ar)).2.1 _ _ _ _ _ _ hdec
          cases hload
          obtain ⟨hI3, hE3, hfm⟩ :=
            (loadWalk_master _).2.1 _ _ _ _ _ _ hH hdec
          have hkeylt : ∀ a o, assocFind h3.heap a = some o → a < h3.nextAddr :=
            fun a o ho => hI3.2.2.2.2.1 (a, o) (assocFind_mem ho)
          refine ⟨rfl, ?_, ?_, r, helper, s, fs, rfl, hres, hmig, ?_, ?_⟩
          · refine ⟨hI3.1, hI3.2.1, hI3.2.2.1, hI3.2.2.2.1, ?_,
              fun p hp => Nat.lt_succ_of_lt (hI3.2.2.2.2.2.1 p hp),
              fun p hp => Nat.lt_succ_of_lt (hI3.2.2.2.2.2.2 p hp)⟩
            intro p hp
            rcases List.mem_cons.1 hp with h1 | h1
            · subst h1
              exact Nat.lt_succ_self _
            · exact Nat.lt_succ_of_lt (hI3.2.2.2.2.1 p h1)
          · refine SessExt_trans hE3
              ⟨rfl, Nat.le_succ _, ?_, fun a i hi => hi, fun o a ha => ha,
               ?_, fun p hp => Or.inl hp, fun p hp => Or.inl hp⟩
            · intro a o ho
              rw [assocFind_cons_ne (Nat.ne_of_lt (hkeylt a o ho))]
              exact ho
            · intro p hp
              rcases List.mem_cons.1 hp with h1 | h1
              · subst h1
                exact Or.inr (le_refl _)
              · exact Or.inl h1
          · exact assocFind_cons_self _ _ _
          · refine fieldsMatch_mono (fun a i hi => hi) ?_ hfm
            intro a o ho
            rw [assocFind_cons_ne (Nat.ne_of_lt (hkeylt a o ho))]
            exact ho

/-- A latest-version load of an object id not yet in the identity map
fetches the latest record, migrates its state if needed, and decodes it
into a fresh registered instance whose fields match the (migrated) stored
state. -/
theorem loadLatest_reconstruct {ar : Archive} {h : Historian} {oid : ObjectId}
    {ar2 : Archive} {h2 : Historian} {b : Addr}
    (hH : HINV ar h) (hmiss : assocFind h.liveOf oid = none)
    (hload : loadLatest ar h oid = .ok (ar2, h2, b)) :
    ar2 = ar ∧ HINV ar h2 ∧ SessExt h h2 ∧
    (∃ i, assocFind h2.tracked b = some i ∧ i.oid = oid ∧
       assocFind h2.liveOf oid = some b) ∧
    ∃ r helper s fs, getLatest ar oid = some r ∧
      resolveType h.registry r.type_id = some helper ∧
      migrateState helper r = .ok s ∧
      assocFind h2.heap b = some ⟨r.type_id, fs⟩ ∧
      fieldsMatch h2.heap h2.tracked fs s = true := by
  have hmain := (loadWalk_master (loadFuel ar)).1 _ _ _ _ _ _ hH hload
  have hframe : ar2 = ar :=
    (loadWalk_ar_eq_all (loadFuel ar)).1 _ _ _ _ _ _ hload
  subst hframe
  refine ⟨rfl, hmain.1, hmain.2.1, hmain.2.2, ?_⟩
  rw [loadLatest, show loadFuel ar2 =
    3 * ar2.length + 3 * archiveStateSize ar2 + 2 + 1 from rfl] at hload
  cases hlat : getLatest ar2 oid with
  | none =>
    simp only [loadOne, hmiss, hlat] at hload
    exact Except.noConfusion hload
  | some r =>
    cases hres : resolveType h.registry r.type_id with
    | none =>
      simp only [loadOne, hmiss, hlat, hres] at hload
      exact Except.noConfusion hload
    | some helper =>
      cases hmig : migrateState helper r with
      | error e =>
        simp only [loadOne, hmiss, hlat, hres, hmig] at hload
        exact Except.noConfusion hload
      | ok s =>
        simp only [loadOne, hmiss, hlat, hres, hmig] at hload
        obtain ⟨hIpre, hEpre⟩ := load_push_inv hH hmiss hlat
        cases hdec : decodeFields (3 * ar2.length + 3 * archiveStateSize ar2 + 2)
            ar2 { h with nextAddr := h.nextAddr + 1,
                         liveOf := (oid, h.nextAddr) :: h.liveOf,
                         tracked := (h.nextAddr, ⟨oid, r.version, r.content_hash⟩) ::
                           h.tracked } s with
        | error e =>
          simp only [hdec] at hload
          exact Except.noConfusion hload
        | ok w =>
          obtain ⟨ar3, h3, fs⟩ := w
          simp only [hdec] at hload
          obtain rfl : ar3 = ar2 :=
            (loadWalk_ar_eq_all _).2.1 _ _ _ _ _ _ hdec
          cases hload
          obtain ⟨hI3, hE3, hfm⟩ :=
            (loadWalk_master _).2.1 _ _ _ _ _ _ hIpre hdec
          have hfreshkey : ∀ p ∈ h3.heap, p.1 ≠ h.nextAddr := by
            intro p hp
            rcases hE3.2.2.2.2.2.1 p hp with hin | hin
            · exact Nat.ne_of_lt (hH.2.2.2.2.1 p hin)
            · have hin' : h.nextAddr + 1 ≤ p.1 := hin
              exact Ne.symm (Nat.ne_of_lt (Nat.lt_of_succ_le hin'))
          refine ⟨r, helper, s, fs, rfl, hres, hmig, ?_, ?_⟩
          · exact assocFind_cons_self _ _ _
          · refine fieldsMatch_mono (fun a i hi => hi) ?_ hfm
            intro a o ho
            have hane : a ≠ h.nextAddr := hfreshkey (a, o) (assocFind_mem ho)
            rw [assocFind_cons_ne hane]
            exact ho

/-- Every system step preserves the world invariant. -/
theorem WINV_step {w w2 : World} (hW : WINV w) (hs : WStep w w2) : WINV w2 := by
  obtain ⟨hA, hR, hH⟩ := hW
  cases hs with
  | newSession reg =>
    refine ⟨hA, hR, ?_⟩
    intro h hmem
    rcases List.mem_cons.1 hmem with h1 | h1
    · subst h1; exact HINV_empty _ _
    · exact hH h h1
  | newObj i o h hget =>
    refine ⟨hA, hR, ?_⟩
    intro h' hmem
    rcases List.mem_or_eq_of_mem_set hmem with h1 | h1
    · exact hH h' h1
    · subst h1
      exact HINV_addObj (hH h (List.get?_mem hget))
  | mutate i a k v h hget =>
    refine ⟨hA, hR, ?_⟩
    intro h' hmem
    rcases List.mem_or_eq_of_mem_set hmem with h1 | h1
    · exact hH h' h1
    · subst h1
      exact HINV_mutateObj (hH h (List.get?_mem hget))
  | register i helper h hget =>
    refine ⟨hA, hR, ?_⟩
    intro h' hmem
    rcases List.mem_or_eq_of_mem_set hmem with h1 | h1
    · exact hH h' h1
    · subst h1
      exact HINV_regHelper (hH h (List.get?_mem hget))
  | saveStep i a h ar2 h2 r hget hsave =>
    obtain ⟨hA2, hR2, hH2, _, _, _, Δ, hΔ⟩ :=
      save_commit w.ar h a ar2 h2 r hA hR (hH h (List.get?_mem hget)) hsave
    refine ⟨hA2, hR2, ?_⟩
    intro h' hmem
    rcases List.mem_or_eq_of_mem_set hmem with h1 | h1
    · subst hΔ
      exact HINV_archive_append Δ (hH h' h1)
    · subst h1
      exact hH2
  | loadStep i oid h ar2 h2 b hget hload =>
    obtain rfl : ar2 = w.ar :=
      (loadWalk_ar_eq_all (loadFuel w.ar)).1 _ _ _ _ _ _ hload
    obtain ⟨hI2, _, _⟩ :=
      (loadWalk_master (loadFuel w.ar)).1 _ _ _ _ _ _
        (hH h (List.get?_mem hget)) hload
    refine ⟨hA, hR, ?_⟩
    intro h' hmem
    rcases List.mem_or_eq_of_mem_set hmem with h1 | h1
    · exact hH h' h1
    · subst h1
      exact hI2
  | loadPinnedStep i oid v h ar2 h2 b hget hload =>
    obtain ⟨rfl, hI2, _, _⟩ :=
      loadPinned_master (hH h (List.get?_mem hget)) hload
    refine ⟨hA, hR, ?_⟩
    intro h' hmem
    rcases List.mem_or_eq_of_mem_set hmem with h1 | h1
    · exact hH h' h1
    · subst h1
      exact hI2

/-- The world invariant holds in every reachable world. -/
theorem WINV_reachable {w : World} (hr : ReachableW w) : WINV w := by
  induction hr with
  | refl =>
    refine ⟨?_, ?_, ?_⟩
    · intro oid; rfl
    · intro r hr; simp at hr
    · intro h hmem; simp at hmem
  | tail _ hstep ih =>
    exact WINV_step ih hstep

/-! ## Positional reading of a state match -/

/-- A successful state match decomposes positionally: the field lists have
equal keys pairwise and each live value matches its encoded node. -/
theorem fieldsMatch_forall₂ {heap : List (Addr × LiveObj)}
    {tr : List (Addr × TrackInfo)} :
    ∀ {f : List (String × FieldVal)} {s : EncodedState},
      fieldsMatch heap tr f s = true →
      List.Forall₂ (fun (kv : String × FieldVal) (kn : String × EncodedNode) =>
        kv.1 = kn.1 ∧
        stateMatch.goNode (fun b oid => trOid tr b == some oid) heap
          kv.2 kn.2 = true) f s := by
  intro f
  induction f with
  | nil =>
    intro s hm
    cases s with
    | nil => exact List.Forall₂.nil
    | cons kn sr => exact Bool.noConfusion hm
  | cons kv fr ih =>
    intro s hm
    cases s with
    | nil => exact Bool.noConfusion hm
    | cons kn sr =>
      obtain ⟨k1, v1⟩ := kv
      obtain ⟨k2, n2⟩ := kn
      rw [show fieldsMatch heap tr ((k1, v1) :: fr) ((k2, n2) :: sr) =
        (k1 == k2 && stateMatch.goNode
          (fun b oid => trOid tr b == some oid) heap v1 n2 &&
         fieldsMatch heap tr fr sr) from rfl] at hm
      simp only [Bool.and_eq_true] at hm
      exact List.Forall₂.cons ⟨beq_iff_eq.1 hm.1.1, hm.1.2⟩ (ih hm.2)

/-- A matched live partner for one encoded by-reference field. -/
theorem fieldsMatch_ref_field {heap : List (Addr × LiveObj)}
    {tr : List (Addr × TrackInfo)} {f : List (String × FieldVal)}
    {s : EncodedState} {k : String} {oid : ObjectId}
    (hm : fieldsMatch heap tr f s = true)
    (hmem : (k, EncodedNode.ref oid) ∈ s) :
    ∃ c, (k, FieldVal.obj c) ∈ f ∧ trOid tr c = some oid := by
  obtain ⟨kv, hkv, hk, hgn⟩ :=
    forall₂_mem_right (fieldsMatch_forall₂ hm) (k, EncodedNode.ref oid) hmem
  obtain ⟨k1, v1⟩ := kv
  cases v1 with
  | prim p => exact Bool.noConfusion hgn
  | obj c =>
    rw [goNode_ref, beq_iff_eq] at hgn
    refine ⟨c, ?_, hgn⟩
    have hk1 : k1 = k := hk
    rw [← hk1]
    exact hkv

/-! ## C3 — round trip -/

/-- C3: for a live object of a registered type saved fresh, the save writes
exactly one record for its new object id and loading that id back (in any
session over the same registry whose identity map does not yet know the id)
produces a live object whose state and the original's state both match the
stored record's encoded state — state equality per the type's field
contract. -/
theorem C3_round_trip (ar : Archive) (h : Historian) (a : Addr)
    (ar2 : Archive) (h2 : Historian) (rf : Reference)
    (hl : Historian) (ar3 : Archive) (h3 : Historian) (b : Addr)
    (hA : AWF ar) (hH : HINV ar h)
    (htrk : assocFind h.tracked a = none)
    (hsave : save ar h a = .ok (ar2, h2, rf))
    (hHl : HINV ar2 hl)
    (hreg : hl.registry = h.registry)
    (hmiss : assocFind hl.liveOf rf.oid = none)
    (hload : loadLatest ar2 hl rf.oid = .ok (ar3, h3, b)) :
    ∃ obj rec fs,
      assocFind h.heap a = some obj ∧
      history ar2 rf.oid = [rec] ∧
      fieldsMatch h.heap h2.tracked obj.fields rec.encoded_state = true ∧
      assocFind h3.heap b = some ⟨rec.type_id, fs⟩ ∧
      fieldsMatch h3.heap h3.tracked fs rec.encoded_state = true := by
  obtain ⟨obj, helper, rec, hobj, hres, hrecoid, hrecver, htid, hsch, hhist,
    hfm⟩ := save_fresh_root ar h a ar2 h2 rf hA hH htrk hsave
  obtain ⟨_, _, _, _, r', helper', s', fs, hlat, hres', hmig, hheapb, hfm'⟩ :=
    loadLatest_reconstruct hHl hmiss hload
  have hlat2 : getLatest ar2 rf.oid = some rec := by
    rw [getLatest, hhist]
    rfl
  rw [hlat2] at hlat
  have he1 : rec = r' := by cases hlat; rfl
  subst he1
  have hres2 : resolveType hl.registry rec.type_id = some helper := by
    rw [hreg, htid, resolveType_type_id hres]
    exact hres
  rw [hres2] at hres'
  have he2 : helper = helper' := by cases hres'; rfl
  subst he2
  have hmig2 : migrateState helper rec = .ok rec.encoded_state := by
    rw [migrateState, if_pos hsch]
  rw [hmig2] at hmig
  have he3 : rec.encoded_state = s' := by cases hmig; rfl
  rw [← he3] at hfm'
  exact ⟨obj, rec, fs, hobj, hhist, hfm, hheapb, hfm'⟩

/-- C3 witness: a car saved fresh in one session and loaded back in a fresh
session round-trips through its version-0 record. -/
theorem C3_round_trip_witness :
    ∃ obj rec fs,
      assocFind hCar.heap 0 = some obj ∧
      history c1ar0 1 = [rec] ∧
      fieldsMatch hCar.heap c1hw1.tracked obj.fields rec.encoded_state = true ∧
      assocFind c1hw2.heap c1b = some ⟨rec.type_id, fs⟩ ∧
      fieldsMatch c1hw2.heap c1hw2.tracked fs rec.encoded_state = true :=
  C3_round_trip [] hCar 0 c1ar0 c1hw1 ⟨1, 0⟩ (emptyHistorian [carH]) c1ar0
    c1hw2 c1b (fun _ => rfl) (HINV_addObj (HINV_empty [] [carH]))
    (by decide) rfl (HINV_empty c1ar0 [carH]) rfl rfl rfl

/-! ## C5 — reference sharing -/

/-- C5: if the records of two objects each hold a by-reference field naming
the same object id, then loading both (in one session, neither already
live) yields live objects whose corresponding fields point at the same live
instance, registered under the shared id.  (The shared instance reflects
the archive's latest state of that id, so a save of a mutated referent
before the loads is what both loaded objects see.) -/
theorem C5_shared_reference (ar : Archive) (h : Historian)
    (oidA oidB oidC : ObjectId) (kA kB : String) (rA rB : DataRecord)
    (helperA helperB : TypeHelper)
    (arA : Archive) (hA1 : Historian) (bA : Addr)
    (arB : Archive) (hB1 : Historian) (bB : Addr)
    (hH : HINV ar h)
    (hmissA : assocFind h.liveOf oidA = none)
    (hloadA : loadLatest ar h oidA = .ok (arA, hA1, bA))
    (hmissB : assocFind hA1.liveOf oidB = none)
    (hloadB : loadLatest ar hA1 oidB = .ok (arB, hB1, bB))
    (hgA : getLatest ar oidA = some rA)
    (hresA : resolveType h.registry rA.type_id = some helperA)
    (hschA : rA.state_schema_version = helperA.schema_version)
    (hmemA : (kA, EncodedNode.ref oidC) ∈ rA.encoded_state)
    (hgB : getLatest ar oidB = some rB)
    (hresB : resolveType h.registry rB.type_id = some helperB)
    (hschB : rB.state_schema_version = helperB.schema_version)
    (hmemB : (kB, EncodedNode.ref oidC) ∈ rB.encoded_state) :
    ∃ oA oB cA cB,
      assocFind hB1.heap bA = some oA ∧ (kA, FieldVal.obj cA) ∈ oA.fields ∧
      assocFind hB1.heap bB = some oB ∧ (kB, FieldVal.obj cB) ∈ oB.fields ∧
      cA = cB ∧ trOid hB1.tracked cA = some oidC := by
  obtain ⟨rfl, hIA, hEA, _, rA', helperA', sA, fsA, hlatA, hresA', hmigA,
    hheapA, hfmA⟩ := loadLatest_reconstruct hH hmissA hloadA
  rw [hgA] at hlatA
  have heA1 : rA = rA' := by cases hlatA; rfl
  subst heA1
  rw [hresA] at hresA'
  have heA2 : helperA = helperA' := by cases hresA'; rfl
  subst heA2
  have hmigA2 : migrateState helperA rA = .ok rA.encoded_state := by
    rw [migrateState, if_pos hschA]
  rw [hmigA2] at hmigA
  have heA3 : rA.encoded_state = sA := by cases hmigA; rfl
  rw [← heA3] at hfmA
  obtain ⟨rfl, hIB, hEB, _, rB', helperB', sB, fsB, hlatB, hresB', hmigB,
    hheapB, hfmB⟩ := loadLatest_reconstruct hIA hmissB hloadB
  rw [hgB] at hlatB
  have heB1 : rB = rB' := by cases hlatB; rfl
  subst heB1
  rw [hEA.1] at hresB'
  rw [hresB] at hresB'
  have heB2 : helperB = helperB' := by cases hresB'; rfl
  subst heB2
  have hmigB2 : migrateState helperB rB = .ok rB.encoded_state := by
    rw [migrateState, if_pos hschB]
  rw [hmigB2] at hmigB
  have heB3 : rB.encoded_state = sB := by cases hmigB; rfl
  rw [← heB3] at hfmB
  obtain ⟨cA, hcA, htrA⟩ := fieldsMatch_ref_field hfmA hmemA
  obtain ⟨cB, hcB, htrB⟩ := fieldsMatch_ref_field hfmB hmemB
  -- transfer the A-side facts to the final session
  have htrA2 : trOid hB1.tracked cA = some oidC := by
    rw [trOid] at htrA ⊢
    cases hfA : assocFind hA1.tracked cA with
    | none => rw [hfA] at htrA; exact Option.noConfusion htrA
    | some i =>
      rw [hfA] at htrA
      rw [hEB.2.2.2.1 cA i hfA]
      exact htrA
  have hheapA2 : assocFind hB1.heap bA = some ⟨rA.type_id, fsA⟩ :=
    hEB.2.2.1 bA _ hheapA
  -- the identity map gives one live instance per object id
  have hiA : ∃ i, assocFind hB1.tracked cA = some i ∧ i.oid = oidC := by
    rw [trOid] at htrA2
    cases hf : assocFind hB1.tracked cA with
    | none => rw [hf] at htrA2; exact Option.noConfusion htrA2
    | some i =>
      rw [hf] at htrA2
      refine ⟨i, rfl, ?_⟩
      simpa using htrA2
  have hiB : ∃ i, assocFind hB1.tracked cB = some i ∧ i.oid = oidC := by
    rw [trOid] at htrB
    cases hf : assocFind hB1.tracked cB with
    | none => rw [hf] at htrB; exact Option.noConfusion htrB
    | some i =>
      rw [hf] at htrB
      refine ⟨i, rfl, ?_⟩
      simpa using htrB
  obtain ⟨iA, hfA2, hiAoid⟩ := hiA
  obtain ⟨iB, hfB2, hiBoid⟩ := hiB
  have hcc : cA = cB := by
    refine hIB.2.1 cA cB iA iB hfA2 hfB2 ?_
    rw [hiAoid, hiBoid]
  exact ⟨⟨rA.type_id, fsA⟩, ⟨rB.type_id, fsB⟩, cA, cB, hheapA2, hcA,
    hheapB, hcB, hcc, htrA2⟩

/-- C5 witness: persons 1 and 3 share car id 2; loading both from the
archive in which the shared car was mutated and saved (version 1, colour
yellow) yields one shared live car instance holding the updated state. -/
theorem C5_shared_reference_witness :
    (∃ oA oB cA cB,
      assocFind c5l2.heap c5a = some oA ∧ ("car", FieldVal.obj cA) ∈ oA.fields ∧
      assocFind c5l2.heap c5b = some oB ∧ ("car", FieldVal.obj cB) ∈ oB.fields ∧
      cA = cB ∧ trOid c5l2.tracked cA = some 2) ∧
    (∃ c, trOid c5l2.tracked c = some 2 ∧
      (assocFind c5l2.heap c).map (fun o => o.fields) =
        some [("colour", FieldVal.prim "yellow")]) := by
  constructor
  · exact C5_shared_reference c5ar3 (emptyHistorian [carH, perH]) 1 3 2
      "car" "car"
      ⟨1, 2, 0, 0, [("car", .ref 2)], 0, contentHash [("car", .ref 2)] 2, 0⟩
      ⟨3, 2, 0, 0, [("car", .ref 2)], 0, contentHash [("car", .ref 2)] 2, 0⟩
      perH perH c5ar3 c5l1 c5a c5ar3 c5l2 c5b
      (HINV_empty c5ar3 [carH, perH]) rfl rfl (by decide) rfl
      (by decide) rfl (by decide) (by decide)
      (by decide) rfl (by decide) (by decide)
  · exact ⟨1, by decide, by decide⟩

/-! ## C2 — idempotent save of an unchanged object -/

/-- C2 (amended): saving a tracked object whose recomputed content hash
equals its last-saved hash returns the previous reference (same object id
and version) — no new version is created for that object.  The unamended
claim ("creates no new DataRecord") is refuted by `C2_counterexample`: the
walk may still stage records for modified by-reference children. -/
theorem C2_idempotent_save (ar : Archive) (h : Historian) (a : Addr)
    (o : LiveObj) (helper : TypeHelper) (i : TrackInfo)
    (hheap : assocFind h.heap a = some o)
    (hres : resolveType h.registry o.typeId = some helper)
    (htr : assocFind h.tracked a = some i)
    (hsame : (encodeFields (4 * h.heap.length + 3) ar h.registry h.heap
      h.tracked [a] ⟨[], [], [(a, i.oid)], freshOid ar h⟩ helper o.fields).map
        (fun w => contentHash w.2 helper.type_id) = .ok i.lastHash) :
    saveRef ar h a = .ok ⟨i.oid, i.lastVersion⟩ := by
  rw [saveRef]
  unfold save
  rw [show saveFuel h = 4 * h.heap.length + 3 + 1 from rfl]
  simp only [depositOne, hheap, hres, htr]
  cases henc : encodeFields (4 * h.heap.length + 3) ar h.registry h.heap
      h.tracked [a] ⟨[], [], [(a, i.oid)], freshOid ar h⟩ helper o.fields with
  | error e =>
    rw [henc] at hsame
    simp [Except.map] at hsame
  | ok w =>
    obtain ⟨st2, s⟩ := w
    rw [henc] at hsame
    simp only [Except.map] at hsame
    injection hsame with hh
    simp only [henc, hh, if_true]
    rfl

/-- Counterexample to C2 as stated: after the person (id 1) and its
by-reference car (id 2) are saved, the car is mutated in memory and the
*person* is saved again.  The person's own hash is unchanged and the save
returns the old reference (1, v0), yet a new DataRecord is written — the
archive grows from two records to three (car version 1). -/
theorem C2_counterexample :
    (saveAr c2ar0 c2h1m 1).map List.length = .ok 3 ∧
    saveRef c2ar0 c2h1m 1 = .ok ⟨1, 0⟩ := by
  constructor <;> decide

/-- C2 witness: re-saving the person with nothing touched returns the old
reference and leaves the archive unchanged. -/
theorem C2_idempotent_save_witness :
    saveRef c2ar0 c2h1 1 = .ok ⟨1, 0⟩ ∧ saveAr c2ar0 c2h1 1 = .ok c2ar0 :=
  ⟨C2_idempotent_save c2ar0 c2h1 1 ⟨2, [("car", .obj 0)]⟩ perH
    ⟨1, 0, contentHash [("car", .ref 2)] 2⟩
    (by decide) rfl (by decide) (by decide), by decide⟩

/-! ## C4 — version monotonicity of histories -/

/-- C4: in every reachable world, for every object id, the versions of the
records returned by `get_history` are exactly `0, 1, …, n−1` in archive
order: strictly increasing, starting at 0, with no gaps. -/
theorem C4_version_monotonicity (w : World) (hr : ReachableW w)
    (oid : ObjectId) :
    (history w.ar oid).map (fun r => r.version) =
      List.range (history w.ar oid).length :=
  (WINV_reachable hr).1 oid

/-- C4 witness: the archive reached by opening a session, creating the car
and saving it satisfies the version invariant for object id 1. -/
theorem C4_version_monotonicity_witness :
    (history c1ar0 1).map (fun r => r.version) =
      List.range (history c1ar0 1).length := by
  refine C4_version_monotonicity ⟨c1ar0, [c1hw1]⟩ ?_ 1
  refine Relation.ReflTransGen.tail (Relation.ReflTransGen.tail
    (Relation.ReflTransGen.tail Relation.ReflTransGen.refl
      (WStep.newSession ⟨[], []⟩ [carH]))
    (WStep.newObj ⟨[], [emptyHistorian [carH]]⟩ 0
      ⟨1, [("colour", FieldVal.prim "red")]⟩ (emptyHistorian [carH]) rfl))
    (WStep.saveStep ⟨[], [hCar]⟩ 0 0 hCar c1ar0 c1hw1 ⟨1, 0⟩ rfl rfl)

/-! ## C6 — pinned historical loads -/

/-- C6: a pinned snapshot is independent of later archive growth: if the
version-`v` record of an object id is `r`, then after any records are
appended, `get_record` still returns `r` and loading the pinned reference
decodes exactly `r`'s (migrated) state into the returned instance. -/
theorem C6_pinned_stability (ar Δ : Archive) (h : Historian)
    (oid : ObjectId) (v : Version) (r : DataRecord)
    (ar2 : Archive) (h2 : Historian) (b : Addr)
    (hrec : getRecord ar oid v = some r)
    (hH : HINV (ar ++ Δ) h)
    (hload : loadPinned (ar ++ Δ) h oid v = .ok (ar2, h2, b)) :
    getRecord (ar ++ Δ) oid v = some r ∧ ar2 = ar ++ Δ ∧
    ∃ helper s fs, resolveType h.registry r.type_id = some helper ∧
      migrateState helper r = .ok s ∧
      assocFind h2.heap b = some ⟨r.type_id, fs⟩ ∧
      fieldsMatch h2.heap h2.tracked fs s = true := by
  have hst := getRecord_append_left Δ hrec
  obtain ⟨hfr, hI2, hE2, r', helper, s, fs, hrec', hres, hmig, hb, hfm⟩ :=
    loadPinned_master hH hload
  rw [hst] at hrec'
  have he : r = r' := by
    cases hrec'
    rfl
  subst he
  exact ⟨hst, hfr, helper, s, fs, hres, hmig, hb, hfm⟩

/-- C6 witness: after a version-1 record is appended, loading the pinned
(1, 0) reference still yields the version-0 (red) state. -/
theorem C6_pinned_stability_witness :
    (getRecord (c1ar0 ++ c6Δ) 1 0 =
      some ⟨1, 1, 0, 0, [("colour", .prim "red")], 0,
            contentHash [("colour", .prim "red")] 1, 0⟩ ∧
     c6res.1 = c1ar0 ++ c6Δ ∧
     ∃ helper s fs,
       resolveType (emptyHistorian [carH]).registry 1 = some helper ∧
       migrateState helper ⟨1, 1, 0, 0, [("colour", .prim "red")], 0,
         contentHash [("colour", .prim "red")] 1, 0⟩ = .ok s ∧
       assocFind c6res.2.1.heap c6res.2.2 = some ⟨1, fs⟩ ∧
       fieldsMatch c6res.2.1.heap c6res.2.1.tracked fs s = true) ∧
    (assocFind c6res.2.1.heap c6res.2.2).map (fun o => o.fields) =
      some [("colour", FieldVal.prim "red")] :=
  ⟨C6_pinned_stability c1ar0 c6Δ (emptyHistorian [carH]) 1 0
    ⟨1, 1, 0, 0, [("colour", .prim "red")], 0,
     contentHash [("colour", .prim "red")] 1, 0⟩
    c6res.1 c6res.2.1 c6res.2.2 (by decide)
    (HINV_empty (c1ar0 ++ c6Δ) [carH]) rfl, by decide⟩

/-! ## C7 — cycles and field policies -/

/-- C7 (amended): a two-object cycle in which the walk embeds the first
object's only field by value and the embedded object points back by a
by-value field fails to save with `CyclicValueEmbeddingError`; and the
two-object by-reference cycle saves successfully and loads back with the
cycle intact.  The unamended universal claim ("any cycle through a by-value
field fails") is refuted by `C7_counterexample`: a mixed cycle (by-value
edge forward, by-reference edge back) saves successfully. -/
theorem C7_cycle_handling :
    (∀ ar (h : Historian) a b obj objB helperA helperB k k2,
       assocFind h.heap a = some obj →
       obj.fields = [(k, FieldVal.obj b)] →
       resolveType h.registry obj.typeId = some helperA →
       k ∉ helperA.refFields →
       assocFind h.heap b = some objB →
       objB.fields = [(k2, FieldVal.obj a)] →
       resolveType h.registry objB.typeId = some helperB →
       k2 ∉ helperB.refFields →
       save ar h a = .error .cyclicValueEmbeddingError) ∧
    (saveRef [] c7h 0 = .ok ⟨1, 0⟩ ∧
     (assocFind c7l.heap 0).map (fun o => o.fields) =
       some [("p", FieldVal.obj 1)] ∧
     (assocFind c7l.heap 1).map (fun o => o.fields) =
       some [("p", FieldVal.obj 0)]) := by
  constructor
  · intro ar h a b obj objB helperA helperB k k2 hha hfa hra hka hhb hfb hrb hkb
    unfold save
    rw [show saveFuel h = 4 * h.heap.length + 2 + 1 + 1 from rfl]
    cases htr : assocFind h.tracked a with
    | some i =>
      simp only [depositOne, hha, hra, htr, hfa]
      rw [encodeFields_cons_obj]
      rw [if_neg hka]
      by_cases hba : b = a
      · rw [if_pos (by simp [hba])]
      · rw [if_neg (by simp [hba])]
        rw [show 4 * h.heap.length + 2 = 4 * h.heap.length + 1 + 1 from rfl]
        simp only [encodeValue, hhb, hrb, hfb]
        rw [encodeFields_cons_obj]
        rw [if_neg hkb]
        rw [if_pos (by simp)]
    | none =>
      simp only [depositOne, hha, hra, htr, hfa]
      rw [encodeFields_cons_obj]
      rw [if_neg hka]
      by_cases hba : b = a
      · rw [if_pos (by simp [hba])]
      · rw [if_neg (by simp [hba])]
        rw [show 4 * h.heap.length + 2 = 4 * h.heap.length + 1 + 1 from rfl]
        simp only [encodeValue, hhb, hrb, hfb]
        rw [encodeFields_cons_obj]
        rw [if_neg hkb]
        rw [if_pos (by simp)]
  · refine ⟨by decide, by decide, by decide⟩

/-- Counterexample to C7 as stated: a mixed two-object cycle — address 0
embeds address 1 through a *by-value* field while address 1 points back at
address 0 by reference — contains a by-value edge in its cycle yet saves
successfully, producing a single record. -/
theorem C7_counterexample :
    saveRef [] c7mh 0 = .ok ⟨1, 0⟩ ∧
    (saveAr [] c7mh 0).map List.length = .ok 1 := by
  constructor <;> decide

/-- C7 witness: the pure by-value two-object cycle fails to save with
`CyclicValueEmbeddingError`. -/
theorem C7_cycle_handling_witness :
    save [] c7vh 0 = .error .cyclicValueEmbeddingError :=
  C7_cycle_handling.1 [] c7vh 0 1 ⟨4, [("p", FieldVal.obj 1)]⟩
    ⟨4, [("p", FieldVal.obj 0)]⟩ valH valH "p" "p"
    (by decide) rfl rfl (by decide) (by decide) rfl rfl (by decide)

/-! ## C9 — unregistered types -/

/-- C9 (amended): saving an object whose runtime type has no registered
TypeHelper fails with `UnregisteredType` naming that type; and once
helpers for *all* types in the object's graph are registered the same save
succeeds.  The unamended claim ("after registering a TypeHelper for that
type, retrying the same save call succeeds") is refuted by
`C9_counterexample`: the retry fails again when a nested object's type is
still unregistered. -/
theorem C9_unregistered_type :
    (∀ ar (h : Historian) a obj, assocFind h.heap a = some obj →
       resolveType h.registry obj.typeId = none →
       save ar h a = .error (.unregisteredType obj.typeId)) ∧
    (saveRef [] c9h2 1 = .ok ⟨1, 0⟩ ∧
     (saveAr [] c9h2 1).map List.length = .ok 2) := by
  constructor
  · intro ar h a obj hha hr
    unfold save
    rw [show saveFuel h = 4 * h.heap.length + 3 + 1 from rfl]
    simp only [depositOne, hha, hr]
  · constructor <;> decide

/-- Counterexample to C9 as stated: with no helpers the save of address 1
fails naming type 5; after registering a helper *for that type* the same
call still fails, now naming the nested unregistered type 4. -/
theorem C9_counterexample :
    saveRef [] c9h0 1 = .error (.unregisteredType 5) ∧
    saveRef [] c9h1 1 = .error (.unregisteredType 4) := by
  constructor <;> decide

/-- C9 witness: the unregistered root type is reported. -/
theorem C9_unregistered_type_witness :
    save [] c9h0 1 = .error (.unregisteredType 5) :=
  C9_unregistered_type.1 [] c9h0 1 ⟨5, [("p", FieldVal.obj 0)]⟩ (by decide) rfl

/-! ## C10 — many-argument save and load -/

/-- C10: `save_many` returns exactly one reference per argument, in
argument order, and `load_many` returns exactly one instance per requested
id, in argument order; on the two-car story the returned references and
loaded instances line up index by index, the i-th loaded object holding the
i-th saved object's state. -/
theorem C10_many_order :
    (∀ ar (h : Historian) as ar2 h2 rs, saveMany ar h as = .ok (ar2, h2, rs) →
       rs.length = as.length) ∧
    (∀ ar (h : Historian) oids ar2 h2 bs, loadMany ar h oids = .ok (ar2, h2, bs) →
       bs.length = oids.length) ∧
    ((saveMany [] c10h [0, 1]).map (fun x => x.2.2) = .ok [⟨1, 0⟩, ⟨2, 0⟩] ∧
     (loadMany c10saved.1 (emptyHistorian [carH]) [1, 2]).map (fun x => x.2.2) =
       .ok [0, 1] ∧
     (assocFind c10loaded.2.1.heap 0).map (fun o => o.fields) =
       some [("colour", FieldVal.prim "red")] ∧
     (assocFind c10loaded.2.1.heap 1).map (fun o => o.fields) =
       some [("colour", FieldVal.prim "blue")]) := by
  refine ⟨?_, ?_, by decide, by decide, by decide, by decide⟩
  · intro ar h as
    induction as generalizing ar h with
    | nil =>
      intro ar2 h2 rs heq
      simp only [saveMany] at heq
      cases heq
      rfl
    | cons a rest ih =>
      intro ar2 h2 rs heq
      simp only [saveMany] at heq
      cases hs : save ar h a with
      | error e =>
        rw [hs] at heq
        exact Except.noConfusion heq
      | ok w =>
        obtain ⟨ar1, h1, r⟩ := w
        simp only [hs] at heq
        cases hrest : saveMany ar1 h1 rest with
        | error e =>
          simp only [hrest] at heq
          exact Except.noConfusion heq
        | ok w2 =>
          obtain ⟨ar2', h2', rs'⟩ := w2
          simp only [hrest] at heq
          cases heq
          rw [List.length_cons, List.length_cons, ih ar1 h1 ar2 h2 rs' hrest]
  · intro ar h oids
    induction oids generalizing ar h with
    | nil =>
      intro ar2 h2 bs heq
      simp only [loadMany] at heq
      cases heq
      rfl
    | cons oid rest ih =>
      intro ar2 h2 bs heq
      simp only [loadMany] at heq
      cases hs : loadLatest ar h oid with
      | error e =>
        rw [hs] at heq
        exact Except.noConfusion heq
      | ok w =>
        obtain ⟨ar1, h1, b⟩ := w
        simp only [hs] at heq
        cases hrest : loadMany ar1 h1 rest with
        | error e =>
          simp only [hrest] at heq
          exact Except.noConfusion heq
        | ok w2 =>
          obtain ⟨ar2', h2', bs'⟩ := w2
          simp only [hrest] at heq
          cases heq
          rw [List.length_cons, List.length_cons, ih ar1 h1 ar2 h2 bs' hrest]

/-- C10 witness: the two-car save returns one reference per argument. -/
theorem C10_many_order_witness :
    c10saved.2.2.length = 2 :=
  C10_many_order.1 [] c10h [0, 1] c10saved.1 c10saved.2.1 c10saved.2.2 rfl
